import Mathlib

/-!
# Verification of the neo-replay drawing engine

A shallow embedding, in Lean 4, of the replay renderer for recorded 2D
raster-drawing sessions (`src/lib.rs`, `src/renderer.rs`), together with
theorems settling the specification claims about it.

Conventions of the embedding:
* Rust `f64` arithmetic is modelled by exact rational arithmetic (`ℚ`).
  All constants appearing in the source (`0.00056`, `0.0042`, `1.0/255.0`, …)
  are exactly representable, and every comparison and rounding step of the
  source is mirrored on `ℚ`.
* Machine-integer casts are modelled explicitly: `f64 as usize` / `f64 as u32`
  truncate toward zero and saturate at 0 (`qToNat`), `f64 as u8` saturates
  into `[0, 255]` (`satU8` applied after the explicit `floor`/`ceil` of the
  source where the source rounds).
* Pixel buffers (`RgbaImage`) are modelled as functions `ℕ → ℕ → Pixel`;
  `put_pixel` is a pointwise functional update.  Loops that write many pixels
  are modelled as left folds over the list of loop indices in source order,
  except where every write is independent of every other cell (noted locally).
-/

namespace NeoReplay

/-- One slot of an action tuple (`ActionValue` in `src/lib.rs`):
a JSON string, float, or integer. -/
inductive ActionValue : Type where
  | str (s : String)
  | num (x : ℚ)
  | int (n : ℤ)
  deriving DecidableEq, Repr

/-- The test used by `fix_actions`: is this slot the string `"eraseAll"`? -/
def isEraseAllSlot : ActionValue → Bool
  | .str s => s = "eraseAll"
  | _ => false

/-- The index scan of `fix_actions` (`src/lib.rs:130-138`): the first index
`idx > 0` at which the action holds the string `"eraseAll"`, if any.
The source iterates over all slots and requires `idx > 0`, which is the same
as searching the tail `a.drop 1` and shifting the found index by one. -/
def eraseAllIndex (a : List ActionValue) : Option ℕ :=
  match (a.drop 1).findIdx? isEraseAllSlot with
  | some k => some (k + 1)
  | none => none

/-- The action-normalisation pass `PchFile::fix_actions` (`src/lib.rs:123-150`).

The source loops over the vector with an index `i`.  When action `i` contains
`"eraseAll"` at some first index `idx > 0` it executes
`actions[i] = before; actions.insert(i, after)` — so the vector now holds the
suffix `after` at position `i` and the prefix `before` at position `i + 1` —
and then advances `i` past both.  That is exactly this recursion. -/
def fixActions : List (List ActionValue) → List (List ActionValue)
  | [] => []
  | a :: rest =>
    match eraseAllIndex a with
    | none => a :: fixActions rest
    | some idx => a.drop idx :: a.take idx :: fixActions rest

/-- What one pass does to a single action: untouched when it has no
`"eraseAll"` at a positive index, otherwise replaced by the suffix starting
at that index followed by the prefix before it.  (This is the per-action
description used to state C3; `fixActions` is proved equal to its
concatenation over the list.) -/
def splitAction (a : List ActionValue) : List (List ActionValue) :=
  match eraseAllIndex a with
  | none => [a]
  | some idx => [a.drop idx, a.take idx]

theorem eraseAllIndex_pos {a : List ActionValue} {idx : ℕ}
    (h : eraseAllIndex a = some idx) : 0 < idx := by
  unfold eraseAllIndex at h
  cases hfind : (a.drop 1).findIdx? isEraseAllSlot with
  | none => rw [hfind] at h; exact absurd h (by simp)
  | some k => rw [hfind] at h; simp only [Option.some.injEq] at h; omega

theorem eraseAllIndex_spec {a : List ActionValue} {idx : ℕ}
    (h : eraseAllIndex a = some idx) :
    0 < idx ∧ idx < a.length ∧ isEraseAllSlot (a.getD idx (.num 0)) = true ∧
      ∀ m, 0 < m → m < idx → isEraseAllSlot (a.getD m (.num 0)) = false := by
  unfold eraseAllIndex at h
  cases hfind : (a.drop 1).findIdx? isEraseAllSlot with
  | none => rw [hfind] at h; exact absurd h (by simp)
  | some k =>
    rw [hfind] at h
    have hk : idx = k + 1 := by
      have := h; simp only [Option.some.injEq] at this; omega
    subst hk
    obtain ⟨hlt, hp, hmin⟩ := List.findIdx?_eq_some_iff_getElem.mp hfind
    have hlen : k + 1 < a.length := by
      simp only [List.length_drop] at hlt; omega
    have hgd : ∀ m (hm : m < (a.drop 1).length),
        a.getD (1 + m) (.num 0) = (a.drop 1).get ⟨m, hm⟩ := by
      intro m hm
      have hlen' : 1 + m < a.length := by simp only [List.length_drop] at hm; omega
      rw [List.getD_eq_getElem _ _ hlen']
      simp [Nat.add_comm]
    refine ⟨by omega, hlen, ?_, ?_⟩
    · have hc : k + 1 = 1 + k := by omega
      rw [hc, hgd k hlt]
      simpa using hp
    · intro m hm0 hmk
      have hm' : m - 1 < (a.drop 1).length := by
        simp only [List.length_drop]; omega
      have hmm : m = 1 + (m - 1) := by omega
      rw [hmm, hgd (m - 1) hm']
      have := hmin (m - 1) (by omega)
      simpa using this

/-- C3 structural description: `fixActions` is the concatenation of the
per-action split over the list. -/
theorem fixActions_eq_flatMap (l : List (List ActionValue)) :
    fixActions l = l.flatMap splitAction := by
  induction l with
  | nil => rfl
  | cons a rest ih =>
    rw [List.flatMap_cons, ← ih]
    show (match eraseAllIndex a with
      | none => a :: fixActions rest
      | some idx => a.drop idx :: a.take idx :: fixActions rest) =
      splitAction a ++ fixActions rest
    cases h : eraseAllIndex a <;> simp [h, splitAction]

theorem fixActions_cons_none {a : List ActionValue} (h : eraseAllIndex a = none)
    (rest : List (List ActionValue)) :
    fixActions (a :: rest) = a :: fixActions rest := by
  show (match eraseAllIndex a with
    | none => a :: fixActions rest
    | some idx => a.drop idx :: a.take idx :: fixActions rest) = _
  rw [h]

theorem fixActions_cons_some {a : List ActionValue} {idx : ℕ}
    (h : eraseAllIndex a = some idx) (rest : List (List ActionValue)) :
    fixActions (a :: rest) = a.drop idx :: a.take idx :: fixActions rest := by
  show (match eraseAllIndex a with
    | none => a :: fixActions rest
    | some idx => a.drop idx :: a.take idx :: fixActions rest) = _
  rw [h]

/-- An action with at most one `"eraseAll"` among its positively-indexed
slots ("single-split"). -/
def singleEraseAll (a : List ActionValue) : Prop :=
  (a.drop 1).countP isEraseAllSlot ≤ 1

instance (a : List ActionValue) : Decidable (singleEraseAll a) := by
  unfold singleEraseAll; infer_instance

/-- The prefix produced by a split never contains `"eraseAll"` at a positive
index: the split happened at the first such index. -/
theorem eraseAllIndex_take {a : List ActionValue} {idx : ℕ}
    (h : eraseAllIndex a = some idx) : eraseAllIndex (a.take idx) = none := by
  obtain ⟨hpos, hlen, -, hmin⟩ := eraseAllIndex_spec h
  unfold eraseAllIndex
  rw [List.findIdx?_eq_none_iff.mpr]
  intro x hx
  obtain ⟨j, hj, hjx⟩ := List.mem_iff_getElem.mp hx
  have hj' : j < idx - 1 := by
    simp only [List.length_drop, List.length_take] at hj
    omega
  have hjlen : 1 + j < a.length := by omega
  have hxval : x = a.getD (1 + j) (.num 0) := by
    rw [← hjx, List.getD_eq_getElem _ _ hjlen]
    rw [List.getElem_drop, List.getElem_take]
  rw [hxval]
  simpa using hmin (1 + j) (by omega) (by omega)

/-- Under `singleEraseAll`, the suffix produced by a split contains no further
`"eraseAll"` at a positive index. -/
theorem eraseAllIndex_drop {a : List ActionValue} {idx : ℕ}
    (h : eraseAllIndex a = some idx) (hs : singleEraseAll a) :
    eraseAllIndex (a.drop idx) = none := by
  obtain ⟨hpos, hlen, hat, -⟩ := eraseAllIndex_spec h
  unfold eraseAllIndex
  rw [List.findIdx?_eq_none_iff.mpr]
  intro x hx
  have hcount : (a.drop (idx + 1)).countP isEraseAllSlot = 0 := by
    have hsplit : a.drop 1 = (a.drop 1).take (idx - 1) ++ (a.drop 1).drop (idx - 1) :=
      (List.take_append_drop _ _).symm
    have hdd : (a.drop 1).drop (idx - 1) = a.drop idx := by
      rw [List.drop_drop]
      congr 1
      omega
    have hcons : a.drop idx = a.getD idx (.num 0) :: a.drop (idx + 1) := by
      rw [List.getD_eq_getElem _ _ hlen]
      exact List.drop_eq_getElem_cons hlen
    have h1 : (a.drop 1).countP isEraseAllSlot =
        ((a.drop 1).take (idx - 1)).countP isEraseAllSlot +
          (a.drop idx).countP isEraseAllSlot := by
      conv_lhs => rw [hsplit]
      rw [List.countP_append, hdd]
    have h2 : (a.drop idx).countP isEraseAllSlot =
        1 + (a.drop (idx + 1)).countP isEraseAllSlot := by
      rw [hcons, List.countP_cons, hat]
      norm_num
      omega
    have := hs
    unfold singleEraseAll at this
    omega
  have hz := List.countP_eq_zero.mp hcount
  have hx' : x ∈ a.drop (idx + 1) := by
    rw [List.drop_drop] at hx
    exact hx
  simpa using hz x hx'

theorem splitAction_of_none {a : List ActionValue} (h : eraseAllIndex a = none) :
    splitAction a = [a] := by
  unfold splitAction
  rw [h]

/-- One pass of `fixActions` over single-split actions is idempotent. -/
theorem fixActions_idem (l : List (List ActionValue))
    (h : ∀ a ∈ l, singleEraseAll a) :
    fixActions (fixActions l) = fixActions l := by
  induction l with
  | nil => rfl
  | cons a rest ih =>
    have hrest := ih (fun b hb => h b (List.mem_cons_of_mem a hb))
    have ha := h a (List.mem_cons_self a rest)
    cases hidx : eraseAllIndex a with
    | none =>
      rw [fixActions_cons_none hidx, fixActions_cons_none hidx, hrest]
    | some idx =>
      rw [fixActions_cons_some hidx,
        fixActions_cons_none (eraseAllIndex_drop hidx ha),
        fixActions_cons_none (eraseAllIndex_take hidx), hrest]

/-- C3 — corrected.  `fix_actions` splits each action containing `"eraseAll"`
at its first positive index `idx` into two consecutive actions, but in the
order **suffix first, then prefix** (the source stores the prefix at slot `i`
and then inserts the suffix *at* slot `i`, pushing the prefix behind it);
all other actions are preserved in relative order. -/
theorem claim_C3_split_suffix_first (l : List (List ActionValue))
    (a : List ActionValue) (idx : ℕ) (h : eraseAllIndex a = some idx) :
    fixActions l = l.flatMap splitAction ∧
      splitAction a = [a.drop idx, a.take idx] ∧
      0 < idx ∧ idx < a.length ∧
      isEraseAllSlot (a.getD idx (.num 0)) = true ∧
      ∀ m, 0 < m → m < idx → isEraseAllSlot (a.getD m (.num 0)) = false := by
  obtain ⟨h1, h2, h3, h4⟩ := eraseAllIndex_spec h
  exact ⟨fixActions_eq_flatMap l, by simp [splitAction, h], h1, h2, h3, h4⟩

/-- Witness for C3: the split of `["freeHand", 0, "eraseAll", 1]` at index 2. -/
theorem claim_C3_split_suffix_first_witness :
    fixActions [[.str "freeHand", .num 0, .str "eraseAll", .num 1]] =
        [[.str "freeHand", .num 0, .str "eraseAll", .num 1]].flatMap splitAction ∧
      splitAction [ActionValue.str "freeHand", .num 0, .str "eraseAll", .num 1] =
        [[.str "eraseAll", .num 1], [.str "freeHand", .num 0]] ∧
      (0 : ℕ) < 2 ∧ (2 : ℕ) < 4 ∧
      isEraseAllSlot ([ActionValue.str "freeHand", .num 0, .str "eraseAll",
        .num 1].getD 2 (.num 0)) = true ∧
      ∀ m, 0 < m → m < 2 →
        isEraseAllSlot ([ActionValue.str "freeHand", .num 0, .str "eraseAll",
          .num 1].getD m (.num 0)) = false :=
  claim_C3_split_suffix_first _ _ 2 (by decide)

/-- C3 counterexample: the claim's order (prefix first, suffix second) is
falsified by the one-action list `[["freeHand", 0, "eraseAll", 1]]`: the pass
puts the `"eraseAll"` suffix first. -/
theorem claim_C3_counterexample :
    fixActions [[.str "freeHand", .num 0, .str "eraseAll", .num 1]] =
        [[.str "eraseAll", .num 1], [.str "freeHand", .num 0]] ∧
      fixActions [[.str "freeHand", .num 0, .str "eraseAll", .num 1]] ≠
        [[.str "freeHand", .num 0], [.str "eraseAll", .num 1]] := by
  constructor <;> decide

/-- C9 — corrected.  One pass of `fix_actions` is idempotent **provided** every
action contains at most one `"eraseAll"` at a positive index; an action with
two of them defeats idempotence because the split suffix (which still contains
a positive-index `"eraseAll"`) is skipped rather than re-examined. -/
theorem claim_C9_idempotent_on_single_split (l : List (List ActionValue))
    (h : ∀ a ∈ l, singleEraseAll a) :
    fixActions (fixActions l) = fixActions l :=
  fixActions_idem l h

/-- Witness for C9 on a concrete single-split list. -/
theorem claim_C9_idempotent_on_single_split_witness :
    fixActions (fixActions [[.str "freeHand", .num 0, .str "eraseAll", .num 1]]) =
      fixActions [[.str "freeHand", .num 0, .str "eraseAll", .num 1]] :=
  claim_C9_idempotent_on_single_split _ (by decide)

/-- C9 counterexample: on `[[0, "eraseAll", "eraseAll"]]` a second pass splits
the suffix `["eraseAll", "eraseAll"]` again, so `fix_actions` is not
idempotent in general. -/
theorem claim_C9_counterexample :
    fixActions (fixActions [[.num 0, .str "eraseAll", .str "eraseAll"]]) ≠
      fixActions [[.num 0, .str "eraseAll", .str "eraseAll"]] := by
  decide

/-! ## Kernel tables (`init_round_data`, `src/renderer.rs:149-196`) -/

/-- The Euclidean circle predicate of `init_round_data`: cell `(x, y)` of the
`d × d` mask is set iff `(x + 0.5 − d/2)² + (y + 0.5 − d/2)² ≤ d²/4`.
The `f64` arithmetic of the source is exact on these half-integer values for
`d ≤ 30`, so the `ℚ` predicate coincides with it. -/
def roundPred (d x y : ℕ) : Bool :=
  decide ((((x : ℚ) + 1/2) - (d : ℚ) / 2) ^ 2 + (((y : ℚ) + 1/2) - (d : ℚ) / 2) ^ 2
    ≤ ((d : ℚ) * d) / 4)

/-- The generated mask of `init_round_data` before the fixed overrides, in
source order: `x` outer, `y` inner, linear index `x·d + y`. -/
def roundMaskRaw (d : ℕ) : List ℕ :=
  (List.range d).flatMap (fun x =>
    (List.range d).map (fun y => if roundPred d x y then 1 else 0))

/-- `round_data[d]`: the generated mask, with the source's fixed overrides
zeroing linear indices 0, 2, 6, 8 for diameter 3 and indices
1, 3, 5, 9, 15, 19, 21, 23 for diameter 5.  Entry 0 and entries beyond 30 do
not exist in the source vector (it has length 31 with entry 0 left empty). -/
def roundData (d : ℕ) : List ℕ :=
  if d = 3 then
    ((((roundMaskRaw 3).set 0 0).set 2 0).set 6 0).set 8 0
  else if d = 5 then
    ((((((((roundMaskRaw 5).set 1 0).set 3 0).set 5 0).set 9 0).set 15
      0).set 19 0).set 21 0).set 23 0
  else if 1 ≤ d ∧ d ≤ 30 then roundMaskRaw d
  else []

theorem flatMap_uniform_getD {α β : Type} (L : List α) (g : α → List β)
    (len : ℕ) (hlen : ∀ a ∈ L, (g a).length = len) (da : α) (dflt : β) :
    ∀ i j, i < L.length → j < len →
      (L.flatMap g).getD (i * len + j) dflt = (g (L.getD i da)).getD j dflt := by
  induction L with
  | nil => intro i j hi _; exact absurd hi (by simp)
  | cons a L ih =>
    intro i j hi hj
    rw [List.flatMap_cons]
    have hga : (g a).length = len := hlen a (List.mem_cons_self a L)
    cases i with
    | zero =>
      simp only [Nat.zero_mul, Nat.zero_add]
      rw [List.getD_append _ _ _ _ (by omega)]
      rfl
    | succ i =>
      have hidx : (i + 1) * len + j = (g a).length + (i * len + j) := by
        rw [hga]; ring
      rw [hidx, List.getD_append_right _ _ _ _ (by omega)]
      have : (g a).length + (i * len + j) - (g a).length = i * len + j := by omega
      rw [this]
      have := ih (fun b hb => hlen b (List.mem_cons_of_mem a hb)) i j (by simpa using hi) hj
      rw [this]
      rfl

theorem roundMaskRaw_getD (d i j : ℕ) (hi : i < d) (hj : j < d) :
    (roundMaskRaw d).getD (i * d + j) 0 = if roundPred d i j then 1 else 0 := by
  unfold roundMaskRaw
  rw [flatMap_uniform_getD (List.range d) _ d (fun a _ => by simp) 0 0 i j (by simpa) hj]
  have hget : (List.range d).getD i 0 = i := by
    rw [List.getD_eq_getElem _ _ (by simpa)]
    simp
  rw [hget]
  rw [List.getD_eq_getElem _ _ (by simpa)]
  simp

unseal Rat.add Rat.mul Rat.sub Rat.inv Rat.ofScientific in
/-- C7 — confirmed.  After construction, `round[3]` has exactly 5 set cells,
`round[5]` has exactly 13, and for every diameter `d ∈ {1,2,4} ∪ [6,30]`
cell `(i,j)` is 1 exactly when the Euclidean circle predicate
`(i+0.5−d/2)² + (j+0.5−d/2)² ≤ d²/4` holds. -/
theorem claim_C7_round_masks :
    (roundData 3).count 1 = 5 ∧ (roundData 5).count 1 = 13 ∧
    ∀ d, (d = 1 ∨ d = 2 ∨ d = 4 ∨ (6 ≤ d ∧ d ≤ 30)) →
      ∀ i j, i < d → j < d →
        ((roundData d).getD (i * d + j) 0 = 1 ↔ roundPred d i j = true) := by
  refine ⟨by decide, by decide, ?_⟩
  intro d hd i j hi hj
  have hne3 : d ≠ 3 := by omega
  have hne5 : d ≠ 5 := by omega
  have hrange : 1 ≤ d ∧ d ≤ 30 := by omega
  have hdata : roundData d = roundMaskRaw d := by
    unfold roundData
    rw [if_neg hne3, if_neg hne5, if_pos hrange]
  rw [hdata, roundMaskRaw_getD d i j hi hj]
  cases h : roundPred d i j <;> simp

/-- Witness for C7 at `d = 6`, cell `(0,0)` (a corner cell, off the circle). -/
theorem claim_C7_round_masks_witness :
    (roundData 6).getD 0 0 = 1 ↔ roundPred 6 0 0 = true :=
  claim_C7_round_masks.2.2 6 (by omega) 0 0 (by omega) (by omega)

/-! ## Alpha curves and the alpha-error accumulator
(`get_alpha`, `src/renderer.rs:258-291`) -/

/-- `v.min(1.0).max(0.0)` of the source. -/
def clampUnit (x : ℚ) : ℚ := max (min x 1) 0

/-- The raw brush/fill curve `−0.00056·a + 0.0042/(1−a) − 0.0042` of
`get_alpha` (`AlphaType::Brush` / `AlphaType::Fill`), with the `f64`
arithmetic idealized as exact rationals: the program's values differ from
these by a few ULPs, and nothing proved below depends on the low-order
bits. -/
def brushCurveRaw (a : ℚ) : ℚ := -0.00056 * a + 0.0042 / (1 - a) - 0.0042

/-- `get_alpha`'s brush curve at colour alpha `colA` (a `u8`), after the
`min(1.0).max(0.0)` clamp.  At `colA = 255` the source's `f64` division by
`1 − a = 0` yields `+∞`, which `min(1.0)` collapses to 1; the explicit branch
mirrors that (`ℚ`-division by zero would instead give 0). -/
def brushAlpha (colA : ℕ) : ℚ :=
  if colA = 255 then 1 else clampUnit (brushCurveRaw ((colA : ℚ) / 255))

/-- `get_alpha`'s fill curve: the raw brush curve times 10, clamped.  The
`colA = 255` branch mirrors `f64` infinity as in `brushAlpha`. -/
def fillAlpha (colA : ℕ) : ℚ :=
  if colA = 255 then 1 else clampUnit (brushCurveRaw ((colA : ℚ) / 255) * 10)

/-- The `while self.state.aerr > 1.0/255.0` loop of `get_alpha`
(`src/renderer.rs:284-287`): each iteration sets the stamp alpha to `1/255`
and decrements `aerr` by `1/255`.  Arguments are `(a1, aerr)`. -/
def accumLoop (a1 aerr : ℚ) : ℚ × ℚ :=
  if h : 1 / 255 < aerr then accumLoop (1 / 255) (aerr - 1 / 255) else (a1, aerr)
termination_by (⌈aerr * 255⌉).toNat
decreasing_by
  have h2 : (1 : ℤ) < ⌈aerr * 255⌉ := by
    rw [Int.lt_ceil]
    push_cast
    nlinarith
  have h3 : (aerr - 1 / 255) * 255 = aerr * 255 - 1 := by ring
  rw [h3]
  rw [show ((1 : ℚ)) = ((1 : ℤ) : ℚ) from by norm_num, Int.ceil_sub_int]
  omega

/-- The alpha-error accumulation block of `get_alpha`
(`src/renderer.rs:281-288`): a curve value below `1/255` is absorbed into
`aerr` and the stamp alpha set to 0, after which the while loop may promote
it back to exactly `1/255`.  Returns `(stamp alpha, new aerr)`. -/
def accumStep (a1 aerr : ℚ) : ℚ × ℚ :=
  if a1 < 1 / 255 then accumLoop 0 (aerr + a1) else (a1, aerr)

theorem accumLoop_unfold (a1 aerr : ℚ) :
    accumLoop a1 aerr =
      if 1 / 255 < aerr then accumLoop (1 / 255) (aerr - 1 / 255)
      else (a1, aerr) := by
  rw [accumLoop]
  simp

theorem accumLoop_snd_le (a1 aerr : ℚ) : (accumLoop a1 aerr).2 ≤ 1 / 255 := by
  induction a1, aerr using accumLoop.induct with
  | case1 a1 aerr h ih => rw [accumLoop_unfold, if_pos h]; exact ih
  | case2 a1 aerr h => rw [accumLoop_unfold, if_neg h]; exact le_of_not_lt h

theorem accumLoop_snd_nonneg (a1 aerr : ℚ) (h0 : 0 ≤ aerr) :
    0 ≤ (accumLoop a1 aerr).2 := by
  induction a1, aerr using accumLoop.induct with
  | case1 a1 aerr h ih =>
    rw [accumLoop_unfold, if_pos h]
    exact ih (by linarith [h])
  | case2 a1 aerr h => rw [accumLoop_unfold, if_neg h]; exact h0

theorem accumLoop_fst (a1 aerr : ℚ) :
    (accumLoop a1 aerr).1 = a1 ∨ (accumLoop a1 aerr).1 = 1 / 255 := by
  induction a1, aerr using accumLoop.induct with
  | case1 a1 aerr h ih =>
    rw [accumLoop_unfold, if_pos h]
    rcases ih with h1 | h1 <;> right <;> exact h1
  | case2 a1 aerr h => rw [accumLoop_unfold, if_neg h]; left; rfl

theorem clampUnit_nonneg (x : ℚ) : 0 ≤ clampUnit x := le_max_right _ _

theorem clampUnit_le_one (x : ℚ) : clampUnit x ≤ 1 :=
  max_le (min_le_right _ _) (by norm_num)

/-- In the idealized exact-rational model of `get_alpha`, one accumulation
step keeps `aerr` within the closed interval `[0, 1/255]`, and a curve
value below `1/255` is emitted as a stamp alpha of either 0 or exactly
`1/255`; all clamped curve values lie in `[0, 1]`.  Whether the upper
endpoint `aerr = 1/255` is ever attained **by the program** is sensitive to
`f64` rounding (the real curve values differ from their rational
idealizations by a few ULPs, which perturbs the accumulator trajectory),
and is not settled by this rational model. -/
theorem accumStep_bounds (a1 aerr : ℚ) (colA : ℕ)
    (ha : 0 ≤ a1) (h0 : 0 ≤ aerr) (h1 : aerr ≤ 1 / 255) :
    (0 ≤ (accumStep a1 aerr).2 ∧ (accumStep a1 aerr).2 ≤ 1 / 255) ∧
      (a1 < 1 / 255 →
        (accumStep a1 aerr).1 = 0 ∨ (accumStep a1 aerr).1 = 1 / 255) ∧
      0 ≤ brushAlpha colA ∧ brushAlpha colA ≤ 1 ∧
      0 ≤ fillAlpha colA ∧ fillAlpha colA ≤ 1 := by
  refine ⟨?_, ?_, ?_, ?_, ?_, ?_⟩
  · unfold accumStep
    by_cases hc : a1 < 1 / 255
    · rw [if_pos hc]
      exact ⟨accumLoop_snd_nonneg _ _ (by linarith), accumLoop_snd_le _ _⟩
    · rw [if_neg hc]; exact ⟨h0, h1⟩
  · intro hc
    unfold accumStep
    rw [if_pos hc]
    exact accumLoop_fst _ _
  · unfold brushAlpha
    split
    · norm_num
    · exact clampUnit_nonneg _
  · unfold brushAlpha
    split
    · norm_num
    · exact clampUnit_le_one _
  · unfold fillAlpha
    split
    · norm_num
    · exact clampUnit_nonneg _
  · unfold fillAlpha
    split
    · norm_num
    · exact clampUnit_le_one _

/-! ## Canvas data model (`Canvas`, `src/renderer.rs:9-54`) -/

/-- One RGBA pixel (`image::Rgba<u8>`); channels are naturals, always kept
below 256 by the `u8` casts of every write. -/
structure Pixel where
  r : ℕ
  g : ℕ
  b : ℕ
  a : ℕ
  deriving DecidableEq, Repr

def Pixel.zero : Pixel := ⟨0, 0, 0, 0⟩

/-- A pixel buffer (`RgbaImage`) as a total function `(x, y) ↦ pixel`;
the canvas bounds live in `Canvas` and every source write is bounds-checked
before it happens. -/
def Layer : Type := ℕ → ℕ → Pixel

/-- `put_pixel`. -/
def Layer.set (L : Layer) (x y : ℕ) (p : Pixel) : Layer :=
  fun i j => if i = x ∧ j = y then p else L i j

theorem Layer.set_same (L : Layer) (x y : ℕ) (p : Pixel) :
    (L.set x y p) x y = p := by
  unfold Layer.set
  simp

theorem Layer.set_other (L : Layer) (x y : ℕ) (p : Pixel) {i j : ℕ}
    (h : ¬(i = x ∧ j = y)) : (L.set x y p) i j = L i j := by
  unfold Layer.set
  simp only [if_neg h]

/-- The two-layer canvas (`Canvas`, `src/renderer.rs:9-15`). -/
structure Canvas where
  layers : Fin 2 → Layer
  width : ℕ
  height : ℕ
  currentLayer : ℕ
  visible : Fin 2 → Bool

/-- `pixel_to_u32` (`src/renderer.rs:1504-1509`):
`(a << 24) | (b << 16) | (g << 8) | r`.  Stored channels are below 256, so
the bit-or of the disjoint bytes is their sum. -/
def packPixel (p : Pixel) : ℕ :=
  p.a * 2 ^ 24 + p.b * 2 ^ 16 + p.g * 2 ^ 8 + p.r

/-- Unpacking a `u32` colour word into RGBA bytes, as in `do_paste` and
`do_flood_fill` (`r = c & 0xff`, `g = (c >> 8) & 0xff`, …). -/
def unpackPixel (c : ℕ) : Pixel :=
  ⟨c % 2 ^ 8, c / 2 ^ 8 % 2 ^ 8, c / 2 ^ 16 % 2 ^ 8, c / 2 ^ 24 % 2 ^ 8⟩

theorem packPixel_unpackPixel (c : ℕ) (h : c < 2 ^ 32) :
    packPixel (unpackPixel c) = c := by
  unfold packPixel unpackPixel
  simp only
  omega

theorem unpackPixel_packPixel (p : Pixel) (hr : p.r < 256) (hg : p.g < 256)
    (hb : p.b < 256) (ha : p.a < 256) : unpackPixel (packPixel p) = p := by
  obtain ⟨r, g, b, a⟩ := p
  dsimp only at hr hg hb ha
  unfold packPixel unpackPixel
  dsimp only
  simp only [Pixel.mk.injEq]
  refine ⟨?_, ?_, ?_, ?_⟩ <;> omega

/-- `f64 as u8` applied to an already-rounded integer value (the source
rounds with `floor`/`ceil`/`+ 0.5` first): saturate into `[0, 255]`. -/
def satU8 (z : ℤ) : ℕ := ((max 0 (min 255 z))).toNat

/-- `f64 as usize` / `f64 as u32` on a finite value: truncation toward zero,
saturating at 0 from below (the saturation at the top is never reached by the
values this model handles; coordinates are clamped against the canvas). -/
def qToNat (q : ℚ) : ℕ := if q ≤ 0 then 0 else q.floor.toNat

/-- Row-major list of the rectangle cells `(px, py)` with `x ≤ px < ex` and
`y ≤ py < ey`, `py` in the outer loop — the iteration order of the rectangle
loops of `do_merge` / `do_copy` / `do_paste`. -/
def rectCells (x y ex ey : ℕ) : List (ℕ × ℕ) :=
  (List.range' y (ey - y)).flatMap (fun py =>
    (List.range' x (ex - x)).map (fun px => (px, py)))

theorem rectCells_mem {x y ex ey i j : ℕ} :
    (i, j) ∈ rectCells x y ex ey ↔ (x ≤ i ∧ i < ex) ∧ (y ≤ j ∧ j < ey) := by
  unfold rectCells
  simp only [List.mem_flatMap, List.mem_map, List.mem_range'_1]
  constructor
  · rintro ⟨py, hpy, px, hpx, heq⟩
    obtain ⟨hpx1, hpx2⟩ := hpx
    obtain ⟨hpy1, hpy2⟩ := hpy
    cases heq
    constructor <;> constructor <;> omega
  · rintro ⟨⟨hx1, hx2⟩, ⟨hy1, hy2⟩⟩
    exact ⟨j, ⟨hy1, by omega⟩, i, ⟨hx1, by omega⟩, rfl⟩

theorem rectCells_nodup (x y ex ey : ℕ) : (rectCells x y ex ey).Nodup := by
  unfold rectCells
  rw [List.nodup_flatMap]
  refine ⟨fun py _ => ?_, ?_⟩
  · refine (List.nodup_range' x (ex - x)).map ?_
    intro a b h
    simpa using congrArg Prod.fst h
  · refine (List.nodup_range' y (ey - y)).imp ?_
    intro a b hab p hpa hpb
    simp only [List.mem_map] at hpa hpb
    obtain ⟨px1, -, rfl⟩ := hpa
    obtain ⟨px2, -, heq⟩ := hpb
    exact hab (congrArg Prod.snd heq).symm

/-! ## Merge (`do_merge`, `src/renderer.rs:1330-1385`) -/

/-- The per-cell blend of `do_merge`: always layer 1 over layer 0
(regardless of which layer is the destination), with half-up rounding
(`(v + 0.5) as u8`); when the combined alpha is zero the channels are
written as literal zeros. -/
def mergePixel (p0 p1 : Pixel) : Pixel :=
  let a0 : ℚ := p0.a / 255
  let a1 : ℚ := p1.a / 255
  let a : ℚ := a0 + a1 - a0 * a1
  let rgb : ℕ × ℕ × ℕ :=
    if 0 < a then
      (satU8 (((p1.r * a1 + p0.r * a0 * (1 - a1)) / a + 1 / 2).floor),
       satU8 (((p1.g * a1 + p0.g * a0 * (1 - a1)) / a + 1 / 2).floor),
       satU8 (((p1.b * a1 + p0.b * a0 * (1 - a1)) / a + 1 / 2).floor))
    else (0, 0, 0)
  ⟨rgb.1, rgb.2.1, rgb.2.2, satU8 ((a * 255 + 1 / 2).floor)⟩

/-- One iteration of the `do_merge` rectangle loop at `cell`: read both
layers at the cell, clear the source layer there, write the blend into the
destination layer.  All reads happen before the two writes, as in the
source. -/
def mergeCellStep (src dst : Fin 2) (Ls : Fin 2 → Layer) (cell : ℕ × ℕ) :
    Fin 2 → Layer :=
  let m := mergePixel (Ls 0 cell.1 cell.2) (Ls 1 cell.1 cell.2)
  fun k =>
    if k = src then (Ls src).set cell.1 cell.2 Pixel.zero
    else if k = dst then (Ls dst).set cell.1 cell.2 m
    else Ls k

/-- `u32` addition: the sums `x + width` of the rectangle clamps wrap
modulo `2^32` (Rust release-mode overflow). -/
def u32Add (a b : ℕ) : ℕ := (a + b) % 2 ^ 32

/-- `do_merge(layer, x, y, w, h)`: clamp the rectangle to the canvas — the
`u32` sum `x + width` wraps, so a huge `width` can produce an end bound at
or below `x` — and run the cell loop.  A `layer ≥ 2` and an empty or fully
out-of-canvas rectangle change nothing (the source's early return; the fold
over an empty cell list is the identity). -/
def doMerge (c : Canvas) (layer x y w h : ℕ) : Canvas :=
  if hl : 2 ≤ layer then c
  else
    let ex := min (u32Add x w) c.width
    let ey := min (u32Add y h) c.height
    let dst : Fin 2 := ⟨layer, by omega⟩
    let src : Fin 2 := if layer = 1 then 0 else 1
    { c with layers := (rectCells x y ex ey).foldl (mergeCellStep src dst) c.layers }

theorem mergeCellStep_other (src dst : Fin 2) (Ls : Fin 2 → Layer)
    (cell : ℕ × ℕ) (k : Fin 2) (i j : ℕ) (h : ¬(i = cell.1 ∧ j = cell.2)) :
    mergeCellStep src dst Ls cell k i j = Ls k i j := by
  unfold mergeCellStep
  split
  · rename_i hk
    rw [Layer.set_other _ _ _ _ h, hk]
  · split
    · rename_i hk
      rw [Layer.set_other _ _ _ _ h, hk]
    · rfl

theorem mergeCellStep_src (src dst : Fin 2) (Ls : Fin 2 → Layer)
    (cell : ℕ × ℕ) :
    mergeCellStep src dst Ls cell src =
      (Ls src).set cell.1 cell.2 Pixel.zero := by
  unfold mergeCellStep
  rw [if_pos rfl]

theorem mergeCellStep_dst (src dst : Fin 2) (hsd : src ≠ dst)
    (Ls : Fin 2 → Layer) (cell : ℕ × ℕ) :
    mergeCellStep src dst Ls cell dst =
      (Ls dst).set cell.1 cell.2
        (mergePixel (Ls 0 cell.1 cell.2) (Ls 1 cell.1 cell.2)) := by
  unfold mergeCellStep
  rw [if_neg (fun hh => hsd hh.symm), if_pos rfl]

theorem mergeFold_frame (src dst : Fin 2) (cells : List (ℕ × ℕ))
    (Ls : Fin 2 → Layer) (i j : ℕ) (h : (i, j) ∉ cells) :
    ∀ k, (cells.foldl (mergeCellStep src dst) Ls) k i j = Ls k i j := by
  induction cells generalizing Ls with
  | nil => intro k; rfl
  | cons cell cs ih =>
    intro k
    rw [List.foldl_cons]
    have hne : ¬(i = cell.1 ∧ j = cell.2) := by
      rintro ⟨h1, h2⟩
      apply h
      rw [List.mem_cons]
      left
      rw [h1, h2]
    rw [ih _ (fun hm => h (List.mem_cons_of_mem _ hm)) k]
    exact mergeCellStep_other src dst Ls cell k i j hne

theorem mergeFold_hit (src dst : Fin 2) (hsd : src ≠ dst)
    (cells : List (ℕ × ℕ)) (hnd : cells.Nodup) (O Ls : Fin 2 → Layer)
    (hagree : ∀ cell ∈ cells, ∀ k, Ls k cell.1 cell.2 = O k cell.1 cell.2)
    (i j : ℕ) (hmem : (i, j) ∈ cells) :
    (cells.foldl (mergeCellStep src dst) Ls) src i j = Pixel.zero ∧
      (cells.foldl (mergeCellStep src dst) Ls) dst i j =
        mergePixel (O 0 i j) (O 1 i j) := by
  induction cells generalizing Ls with
  | nil => exact absurd hmem (by simp)
  | cons cell cs ih =>
    rw [List.foldl_cons]
    rcases List.mem_cons.mp hmem with hc | hcs
    · subst hc
      have hnotin : (i, j) ∉ cs := (List.nodup_cons.mp hnd).1
      have hfr := mergeFold_frame src dst cs
        (mergeCellStep src dst Ls (i, j)) i j hnotin
      rw [hfr src, hfr dst]
      constructor
      · rw [mergeCellStep_src]
        exact Layer.set_same _ _ _ _
      · rw [mergeCellStep_dst src dst hsd]
        have hs := Layer.set_same (Ls dst) i j
          (mergePixel (Ls 0 i j) (Ls 1 i j))
        refine Eq.trans hs ?_
        rw [hagree _ hmem 0, hagree _ hmem 1]
    · have hcellnotcs : cell ∉ cs := (List.nodup_cons.mp hnd).1
      apply ih (List.nodup_cons.mp hnd).2 _ _ hcs
      intro d hd k
      have hdne : d ≠ cell := fun hh => hcellnotcs (hh ▸ hd)
      have hne : ¬(d.1 = cell.1 ∧ d.2 = cell.2) := by
        rintro ⟨h1, h2⟩
        exact hdne (Prod.ext h1 h2)
      rw [mergeCellStep_other src dst Ls cell k d.1 d.2 hne]
      exact hagree d (List.mem_cons_of_mem _ hd) k

/-- `do_merge` leaves anything but `layers` unchanged, clears the source
layer on the clamped rectangle, writes `mergePixel` of the two pre-merge
pixels into the destination there, and leaves all other pixels alone. -/
theorem doMerge_spec (c : Canvas) (layer x y w h : ℕ) (hl : layer < 2) :
    (∀ i j, x ≤ i → i < min (u32Add x w) c.width → y ≤ j → j < min (u32Add y h) c.height →
        (doMerge c layer x y w h).layers (if layer = 1 then 0 else 1) i j =
          Pixel.zero ∧
        (doMerge c layer x y w h).layers ⟨layer, hl⟩ i j =
          mergePixel (c.layers 0 i j) (c.layers 1 i j)) ∧
      (∀ i j, ¬((x ≤ i ∧ i < min (u32Add x w) c.width) ∧
          (y ≤ j ∧ j < min (u32Add y h) c.height)) →
        ∀ k, (doMerge c layer x y w h).layers k i j = c.layers k i j) ∧
      (doMerge c layer x y w h).width = c.width ∧
      (doMerge c layer x y w h).height = c.height ∧
      (doMerge c layer x y w h).currentLayer = c.currentLayer ∧
      (doMerge c layer x y w h).visible = c.visible := by
  have hne : (if layer = 1 then (0 : Fin 2) else 1) ≠ (⟨layer, hl⟩ : Fin 2) := by
    intro hh
    have hv := congrArg Fin.val hh
    by_cases hc : layer = 1
    · rw [if_pos hc] at hv
      simp [hc] at hv
    · rw [if_neg hc] at hv
      simp at hv
      omega
  unfold doMerge
  rw [dif_neg (by omega : ¬ 2 ≤ layer)]
  refine ⟨?_, ?_, rfl, rfl, rfl, rfl⟩
  · intro i j h1 h2 h3 h4
    have hmem : (i, j) ∈ rectCells x y (min (u32Add x w) c.width) (min (u32Add y h) c.height) :=
      rectCells_mem.mpr ⟨⟨h1, h2⟩, ⟨h3, h4⟩⟩
    exact mergeFold_hit _ _ hne _ (rectCells_nodup _ _ _ _) c.layers c.layers
      (fun _ _ _ => rfl) i j hmem
  · intro i j hout k
    have hnmem : (i, j) ∉ rectCells x y (min (u32Add x w) c.width) (min (u32Add y h) c.height) :=
      fun hm => hout (rectCells_mem.mp hm)
    exact mergeFold_frame _ _ _ c.layers i j hnmem k

/-- C1 — corrected.  `do_merge` always blends **layer 1 over layer 0**
(`mergePixel`, the formula `(c₁·α₁ + c₀·α₀·(1−α₁))/α` with half-up rounding
on fixed layer indices), whichever layer is the destination; the claim's
"source over destination" reading only coincides with this when the
destination is layer 0.  The source layer is cleared inside the clamped
rectangle and both layers are untouched outside it. -/
theorem claim_C1_merge_layer1_over_layer0 (c : Canvas) (layer x y w h : ℕ)
    (hl : layer < 2) :
    (∀ i j, x ≤ i → i < min (u32Add x w) c.width → y ≤ j → j < min (u32Add y h) c.height →
        (doMerge c layer x y w h).layers (if layer = 1 then 0 else 1) i j =
          Pixel.zero ∧
        (doMerge c layer x y w h).layers ⟨layer, hl⟩ i j =
          mergePixel (c.layers 0 i j) (c.layers 1 i j)) ∧
      (∀ i j, ¬((x ≤ i ∧ i < min (u32Add x w) c.width) ∧
          (y ≤ j ∧ j < min (u32Add y h) c.height)) →
        ∀ k, (doMerge c layer x y w h).layers k i j = c.layers k i j) :=
  ⟨(doMerge_spec c layer x y w h hl).1, (doMerge_spec c layer x y w h hl).2.1⟩

/-- The demonstration canvas for C1: 1×1, layer 0 opaque red, layer 1
opaque green. -/
def mergeDemoCanvas : Canvas where
  layers := fun k => fun _ _ =>
    if k = 0 then ⟨255, 0, 0, 255⟩ else ⟨0, 255, 0, 255⟩
  width := 1
  height := 1
  currentLayer := 0
  visible := fun _ => true

/-- Modelled from the claim's words (for refutation only): the straight-alpha
over of the *source* pixel over the *destination* pixel with half-up
rounding, `α = α_s + α_d − α_s·α_d`, `c = (c_s·α_s + c_d·α_d·(1−α_s))/α`. -/
def mergePixelSpecC1 (srcP dstP : Pixel) : Pixel :=
  let as0 : ℚ := srcP.a / 255
  let ad0 : ℚ := dstP.a / 255
  let al : ℚ := as0 + ad0 - as0 * ad0
  if 0 < al then
    ⟨satU8 (((srcP.r * as0 + dstP.r * ad0 * (1 - as0)) / al + 1 / 2).floor),
     satU8 (((srcP.g * as0 + dstP.g * ad0 * (1 - as0)) / al + 1 / 2).floor),
     satU8 (((srcP.b * as0 + dstP.b * ad0 * (1 - as0)) / al + 1 / 2).floor),
     satU8 ((al * 255 + 1 / 2).floor)⟩
  else Pixel.zero

/-- Witness for C1 on the demonstration canvas with destination layer 0. -/
theorem claim_C1_merge_layer1_over_layer0_witness :
    (∀ i j, 0 ≤ i → i < min (u32Add 0 1) mergeDemoCanvas.width → 0 ≤ j →
        j < min (u32Add 0 1) mergeDemoCanvas.height →
        (doMerge mergeDemoCanvas 0 0 0 1 1).layers
            (if (0 : ℕ) = 1 then 0 else 1) i j = Pixel.zero ∧
        (doMerge mergeDemoCanvas 0 0 0 1 1).layers ⟨0, by omega⟩ i j =
          mergePixel (mergeDemoCanvas.layers 0 i j)
            (mergeDemoCanvas.layers 1 i j)) ∧
      (∀ i j, ¬((0 ≤ i ∧ i < min (u32Add 0 1) mergeDemoCanvas.width) ∧
          (0 ≤ j ∧ j < min (u32Add 0 1) mergeDemoCanvas.height)) →
        ∀ k, (doMerge mergeDemoCanvas 0 0 0 1 1).layers k i j =
          mergeDemoCanvas.layers k i j) :=
  claim_C1_merge_layer1_over_layer0 mergeDemoCanvas 0 0 0 1 1 (by omega)

unseal Rat.add Rat.mul Rat.sub Rat.inv Rat.ofScientific in
/-- C1 counterexample: with destination layer 1 on the demonstration canvas
(layer 0 opaque red, layer 1 opaque green), the merged layer-1 pixel is the
green layer-1-over-layer-0 result, not the red source-over-destination pixel
the claim predicts. -/
theorem claim_C1_counterexample :
    (doMerge mergeDemoCanvas 1 0 0 1 1).layers 1 0 0 = ⟨0, 255, 0, 255⟩ ∧
      mergePixelSpecC1 (mergeDemoCanvas.layers 0 0 0)
          (mergeDemoCanvas.layers 1 0 0) = ⟨255, 0, 0, 255⟩ ∧
      (doMerge mergeDemoCanvas 1 0 0 1 1).layers 1 0 0 ≠
        mergePixelSpecC1 (mergeDemoCanvas.layers 0 0 0)
          (mergeDemoCanvas.layers 1 0 0) := by
  refine ⟨by decide, by decide, by decide⟩

/-! ## Copy and paste (`do_copy` / `do_paste`, `src/renderer.rs:1249-1328`) -/

/-- `u32 as i32`: two's-complement reinterpretation. -/
def u32ToI32 (n : ℕ) : ℤ := if n < 2 ^ 31 then (n : ℤ) else (n : ℤ) - 2 ^ 32

/-- `i32 as u32`: two's-complement reinterpretation (also absorbs the
wrapping of the preceding `i32` addition). -/
def i32ToU32 (z : ℤ) : ℕ := (z % 2 ^ 32).toNat

/-- The destination coordinate of `do_paste`: `(x as i32 + dx) as u32`. -/
def pasteDest (x : ℕ) (d : ℤ) : ℕ := i32ToU32 (u32ToI32 x + d)

/-- `do_copy(layer, x, y, w, h)` (`src/renderer.rs:1249-1283`), returning the
new clipboard.  A `layer ≥ 2` returns before the clipboard is cleared; an
empty or out-of-canvas rectangle clears the clipboard and stores nothing;
otherwise the clamped rectangle is packed row-major.  The `u32` sums
`x + width` / `y + height` wrap. -/
def doCopy (c : Canvas) (clip0 : Option (List ℕ)) (layer x y w h : ℕ) :
    Option (List ℕ) :=
  if hl : 2 ≤ layer then clip0
  else
    let ex := min (u32Add x w) c.width
    let ey := min (u32Add y h) c.height
    if c.width ≤ x ∨ c.height ≤ y ∨ ex ≤ x ∨ ey ≤ y then none
    else
      some ((List.range' y (ey - y)).flatMap fun py =>
        (List.range' x (ex - x)).map fun px =>
          packPixel (c.layers ⟨layer, by omega⟩ px py))

/-- The landed branch of `do_paste`: destination rectangle, early return on
an empty or out-of-canvas destination, otherwise the row-major unpack loop
(the running clipboard index advances only while data remains) followed by
clearing the clipboard.  The `u32` sums `dest_x + width` / `dest_y + height`
wrap, so a huge `width` makes the destination rectangle empty and the paste
return early, keeping the clipboard. -/
def doPasteData (c : Canvas) (data : List ℕ) (li : Fin 2) (x y w h : ℕ)
    (dx dy : ℤ) : Canvas × Option (List ℕ) :=
  let destX := pasteDest x dx
  let destY := pasteDest y dy
  let ex := min (u32Add destX w) c.width
  let ey := min (u32Add destY h) c.height
  if c.width ≤ destX ∨ c.height ≤ destY ∨ ex ≤ destX ∨ ey ≤ destY then
    (c, some data)
  else
    let res := (rectCells destX destY ex ey).foldl
      (fun acc cell =>
        if acc.2 < data.length then
          (acc.1.set cell.1 cell.2 (unpackPixel (data.getD acc.2 0)),
            acc.2 + 1)
        else acc)
      (c.layers li, 0)
    ({ c with layers := fun k => if k = li then res.1 else c.layers k }, none)

/-- `do_paste(layer, x, y, w, h, dx, dy)` (`src/renderer.rs:1285-1328`).
The destination origin is `(x+dx, y+dy)` with `i32`/`u32` wrap-around; if
the layer is out of range, there is no clipboard, or the clamped destination
rectangle is empty, **nothing changes — including the clipboard**; otherwise
the clipboard is unpacked and then cleared. -/
def doPaste (c : Canvas) (clip : Option (List ℕ)) (layer x y w h : ℕ)
    (dx dy : ℤ) : Canvas × Option (List ℕ) :=
  if hl : 2 ≤ layer then (c, clip)
  else
    match clip with
    | none => (c, clip)
    | some data => doPasteData c data ⟨layer, by omega⟩ x y w h dx dy

/-- C8 — corrected.  The clipboard is emptied by a paste only when the paste
actually lands: with a clipboard, a valid layer, and a clamped destination
rectangle that intersects the canvas.  A paste whose destination rectangle
lies outside the canvas (or is empty) returns early and leaves canvas *and*
clipboard unchanged — so a second consecutive paste need not be a no-op.  A
paste with no clipboard changes nothing. -/
theorem claim_C8_paste_clears_clipboard_only_on_hit (c : Canvas)
    (clip : Option (List ℕ)) (layer x y w h : ℕ) (dx dy : ℤ)
    (data : List ℕ) :
    (doPaste c none layer x y w h dx dy = (c, none)) ∧
      (layer < 2 → pasteDest x dx < c.width → pasteDest y dy < c.height →
        pasteDest x dx < min (u32Add (pasteDest x dx) w) c.width →
        pasteDest y dy < min (u32Add (pasteDest y dy) h) c.height →
        (doPaste c (some data) layer x y w h dx dy).2 = none) ∧
      ((c.width ≤ pasteDest x dx ∨ c.height ≤ pasteDest y dy ∨
          min (u32Add (pasteDest x dx) w) c.width ≤ pasteDest x dx ∨
          min (u32Add (pasteDest y dy) h) c.height ≤ pasteDest y dy) →
        doPaste c clip layer x y w h dx dy = (c, clip)) := by
  refine ⟨?_, ?_, ?_⟩
  · unfold doPaste
    split
    · rfl
    · rfl
  · intro hlay h1 h2 h3 h4
    have hn : ¬ 2 ≤ layer := by omega
    have hcond : ¬(c.width ≤ pasteDest x dx ∨ c.height ≤ pasteDest y dy ∨
        min (u32Add (pasteDest x dx) w) c.width ≤ pasteDest x dx ∨
        min (u32Add (pasteDest y dy) h) c.height ≤ pasteDest y dy) := by
      push_neg
      refine ⟨by omega, by omega, by omega, by omega⟩
    unfold doPaste
    rw [dif_neg hn]
    show (doPasteData c data ⟨layer, by omega⟩ x y w h dx dy).2 = none
    unfold doPasteData
    rw [if_neg hcond]
  · intro hout
    unfold doPaste
    split
    · rfl
    · rename_i hn
      cases clip with
      | none => rfl
      | some d =>
        show doPasteData c d ⟨layer, by omega⟩ x y w h dx dy = (c, some d)
        unfold doPasteData
        rw [if_pos hout]

/-- Witness for C8: a paste with no clipboard on the demonstration canvas. -/
theorem claim_C8_paste_clears_clipboard_only_on_hit_witness :
    doPaste mergeDemoCanvas none 0 0 0 1 1 0 0 = (mergeDemoCanvas, none) :=
  (claim_C8_paste_clears_clipboard_only_on_hit mergeDemoCanvas none
    0 0 0 1 1 0 0 []).1

/-- The demonstration canvas for C8: 2×2, layer 0 has an opaque red pixel at
`(0,0)` and transparent pixels elsewhere. -/
def pasteDemoCanvas : Canvas where
  layers := fun k => fun i j =>
    if k = 0 ∧ i = 0 ∧ j = 0 then ⟨255, 0, 0, 255⟩ else Pixel.zero
  width := 2
  height := 2
  currentLayer := 0
  visible := fun _ => true

/-- A clipboard produced by `copy(0, 0, 0, 1, 1)` on the canvas above. -/
def pasteDemoClip : Option (List ℕ) := doCopy pasteDemoCanvas none 0 0 0 1 1

/-- C8 counterexample: after `copy(0,0,0,1,1)`, a paste whose destination
`x + dx = 3` lies right of the 2×2 canvas leaves the clipboard **intact**
(the whole paste is the identity), contradicting "the clipboard is empty
after the action regardless of where the destination rectangle lands"; a
second consecutive paste then really writes to the canvas. -/
theorem claim_C8_counterexample :
    pasteDemoClip ≠ none ∧
      doPaste pasteDemoCanvas pasteDemoClip 0 0 0 1 1 3 0 =
        (pasteDemoCanvas, pasteDemoClip) ∧
      (doPaste pasteDemoCanvas pasteDemoClip 0 1 0 1 1 0 0).1.layers 0 1 0 =
        ⟨255, 0, 0, 255⟩ ∧
      pasteDemoCanvas.layers 0 1 0 = Pixel.zero := by
  refine ⟨by decide, rfl, by decide, by decide⟩

/-! ## Point stamps
(`set_pen_point` / `set_brush_point` / `set_tone_point` / `set_eraser_point`,
`src/renderer.rs:701-938`) -/

/-- The stamp diameter: `self.state.current_width as usize` then
`.clamp(1, 30)`.  The `f64 → usize` cast **truncates toward zero** (2.7
selects diameter 2), it does not round. -/
def stampDiameter (w : ℚ) : ℕ := min (max (qToNat w) 1) 30

/-- `(d as f64 / 2.0).floor() as usize`. -/
def stampRadius (d : ℕ) : ℕ := d / 2

/-- The `(i, j)` loop pairs of a stamp: `i` rows outer, `j` columns inner;
the linear mask index `i·d + j` advances over masked-off cells too. -/
def stampCells (d : ℕ) : List (ℕ × ℕ) :=
  (List.range d).flatMap (fun i => (List.range d).map (fun j => (i, j)))

theorem stampCells_mem {d i j : ℕ} :
    (i, j) ∈ stampCells d ↔ i < d ∧ j < d := by
  unfold stampCells
  simp only [List.mem_flatMap, List.mem_map, List.mem_range]
  constructor
  · rintro ⟨ii, hii, jj, hjj, heq⟩
    cases heq
    exact ⟨hii, hjj⟩
  · rintro ⟨hi, hj⟩
    exact ⟨i, hi, j, hj, rfl⟩

/-- The pixel a mask cell `(i, j)` addresses:
`(x − ⌊d/2⌋ + j, y − ⌊d/2⌋ + i)` (valid when the subtraction is guarded). -/
def stampPos (r x y : ℕ) (ij : ℕ × ℕ) : ℕ × ℕ :=
  (x + ij.2 - r, y + ij.1 - r)

/-- The write condition of every stamp loop: the mask cell is set and the
addressed pixel lies on the canvas (`pixel_x ≥ 0`, `pixel_y ≥ 0` become the
`r ≤ x + j` guards of the ℕ encoding). -/
def stampOk (W H d r x y : ℕ) (shape : List ℕ) (ij : ℕ × ℕ) : Prop :=
  shape.getD (ij.1 * d + ij.2) 0 = 1 ∧
    r ≤ x + ij.2 ∧ x + ij.2 - r < W ∧ r ≤ y + ij.1 ∧ y + ij.1 - r < H

instance (W H d r x y : ℕ) (shape : List ℕ) (ij : ℕ × ℕ) :
    Decidable (stampOk W H d r x y shape ij) := by
  unfold stampOk; infer_instance

/-- The shared shape of the four stamp loops: fold the cells in source
order, writing `write ij` (which may read the pixel being overwritten, as
the pen and brush blends do) at `pos ij` when `ok ij` holds. -/
def pointStampFold (d : ℕ) (ok : ℕ × ℕ → Prop) [DecidablePred ok]
    (write : ℕ × ℕ → Pixel → Pixel) (pos : ℕ × ℕ → ℕ × ℕ) (L : Layer) :
    Layer :=
  (stampCells d).foldl
    (fun acc ij =>
      if ok ij then
        acc.set (pos ij).1 (pos ij).2 (acc (pos ij).1 (pos ij).2 |> write ij)
      else acc) L

theorem stampWriteFold_frame (cells : List (ℕ × ℕ)) (ok : ℕ × ℕ → Prop)
    [DecidablePred ok] (write : ℕ × ℕ → Pixel → Pixel)
    (pos : ℕ × ℕ → ℕ × ℕ) (L : Layer) (p : ℕ × ℕ)
    (h : ∀ e ∈ cells, ok e → pos e ≠ p) :
    (cells.foldl (fun acc ij =>
      if ok ij then
        acc.set (pos ij).1 (pos ij).2 (acc (pos ij).1 (pos ij).2 |> write ij)
      else acc) L) p.1 p.2 = L p.1 p.2 := by
  induction cells generalizing L with
  | nil => rfl
  | cons c cs ih =>
    rw [List.foldl_cons]
    rw [ih _ (fun e he hok => h e (List.mem_cons_of_mem _ he) hok)]
    split
    · rename_i hok
      refine Layer.set_other _ _ _ _ ?_
      rintro ⟨h1, h2⟩
      exact h c (List.mem_cons_self _ _) hok (Prod.ext h1 h2).symm
    · rfl

theorem stampWriteFold_hit (cells : List (ℕ × ℕ)) (ok : ℕ × ℕ → Prop)
    [DecidablePred ok] (write : ℕ × ℕ → Pixel → Pixel)
    (pos : ℕ × ℕ → ℕ × ℕ) (hnd : cells.Nodup)
    (hinj : ∀ a ∈ cells, ∀ b ∈ cells, ok a → ok b → pos a = pos b → a = b)
    (c : ℕ × ℕ) (hc : c ∈ cells) (hok : ok c) (L : Layer) :
    (cells.foldl (fun acc ij =>
      if ok ij then
        acc.set (pos ij).1 (pos ij).2 (acc (pos ij).1 (pos ij).2 |> write ij)
      else acc) L) (pos c).1 (pos c).2 = write c (L (pos c).1 (pos c).2) := by
  induction cells generalizing L with
  | nil => exact absurd hc (by simp)
  | cons a as ih =>
    rw [List.foldl_cons]
    rcases List.mem_cons.mp hc with hca | hcas
    · subst hca
      have hrest : ∀ e ∈ as, ok e → pos e ≠ pos c := by
        intro e he hoke heq
        have heqc : e = c := hinj e (List.mem_cons_of_mem _ he) c
          (List.mem_cons_self _ _) hoke hok heq
        subst heqc
        exact (List.nodup_cons.mp hnd).1 he
      rw [stampWriteFold_frame as ok write pos _ (pos c) hrest]
      rw [if_pos hok]
      exact Layer.set_same _ _ _ _
    · have hanotas : a ∉ as := (List.nodup_cons.mp hnd).1
      have hane : a ≠ c := fun hh => hanotas (hh ▸ hcas)
      have hstep : ∀ M : Layer,
          (if ok a then
            M.set (pos a).1 (pos a).2 (M (pos a).1 (pos a).2 |> write a)
           else M) (pos c).1 (pos c).2 = M (pos c).1 (pos c).2 := by
        intro M
        split
        · rename_i hoka
          refine Layer.set_other _ _ _ _ ?_
          rintro ⟨h1, h2⟩
          exact hane (hinj a (List.mem_cons_self _ _) c
            (List.mem_cons_of_mem _ hcas) hoka hok
            (Prod.ext h1 h2).symm)
        · rfl
      rw [ih (List.nodup_cons.mp hnd).2
        (fun e he => fun b hb => hinj e (List.mem_cons_of_mem _ he) b
          (List.mem_cons_of_mem _ hb)) hcas]
      rw [hstep L]

theorem stampCells_nodup (d : ℕ) : (stampCells d).Nodup := by
  unfold stampCells
  rw [List.nodup_flatMap]
  refine ⟨fun i _ => ?_, ?_⟩
  · refine (List.nodup_range d).map ?_
    intro a b hab
    simpa using congrArg Prod.snd hab
  · refine (List.nodup_range d).imp ?_
    intro a b hab q hqa hqb
    simp only [List.mem_map] at hqa hqb
    obtain ⟨j1, -, rfl⟩ := hqa
    obtain ⟨j2, -, heq⟩ := hqb
    exact hab (congrArg Prod.fst heq).symm

/-- Two stamp cells that both pass the bounds guard and address the same
pixel are the same cell. -/
theorem stampPos_inj (W H d r x y : ℕ) (shape : List ℕ) :
    ∀ a ∈ stampCells d, ∀ b ∈ stampCells d,
      stampOk W H d r x y shape a → stampOk W H d r x y shape b →
      stampPos r x y a = stampPos r x y b → a = b := by
  intro a _ b _ hoka hokb heq
  obtain ⟨-, ha1, -, ha2, -⟩ := hoka
  obtain ⟨-, hb1, -, hb2, -⟩ := hokb
  unfold stampPos at heq
  have h1 := congrArg Prod.fst heq
  have h2 := congrArg Prod.snd heq
  simp only at h1 h2
  refine Prod.ext ?_ ?_ <;> omega

/-- Pen blend at one pixel (`set_pen_point`, `src/renderer.rs:734-767`):
straight-alpha over with `α₁ₓ = max(α₁, 1/255)`, source-directed rounding
(`ceil` when the stroke channel exceeds the destination channel, `floor`
otherwise), channels clamped into `[0,255]`, output alpha
`ceil(α·255).min(255)`; channels left as the destination when the combined
alpha is not positive. -/
def penBlendPixel (col : Pixel) (a1 : ℚ) (p : Pixel) : Pixel :=
  let a0 : ℚ := p.a / 255
  let a : ℚ := a0 + a1 - a0 * a1
  let rgb : ℕ × ℕ × ℕ :=
    if 0 < a then
      let a1x := max a1 (1 / 255)
      let rr : ℚ := (col.r * a1x + p.r * a0 * (1 - a1x)) / a
      let gg : ℚ := (col.g * a1x + p.g * a0 * (1 - a1x)) / a
      let bb : ℚ := (col.b * a1x + p.b * a0 * (1 - a1x)) / a
      (satU8 (if p.r < col.r then rr.ceil else rr.floor),
       satU8 (if p.g < col.g then gg.ceil else gg.floor),
       satU8 (if p.b < col.b then bb.ceil else bb.floor))
    else (satU8 p.r, satU8 p.g, satU8 p.b)
  ⟨rgb.1, rgb.2.1, rgb.2.2, satU8 (min ((a * 255).ceil) 255)⟩

/-- Brush blend at one pixel (`set_brush_point`, `src/renderer.rs:808-841`):
like the pen but with channels `(c₁·α₁ₓ + c₀·α₀) / (α₀ + α₁ₓ)`. -/
def brushBlendPixel (col : Pixel) (a1 : ℚ) (p : Pixel) : Pixel :=
  let a0 : ℚ := p.a / 255
  let a : ℚ := a0 + a1 - a0 * a1
  let rgb : ℕ × ℕ × ℕ :=
    if 0 < a then
      let a1x := max a1 (1 / 255)
      let rr : ℚ := (col.r * a1x + p.r * a0) / (a0 + a1x)
      let gg : ℚ := (col.g * a1x + p.g * a0) / (a0 + a1x)
      let bb : ℚ := (col.b * a1x + p.b * a0) / (a0 + a1x)
      (satU8 (if p.r < col.r then rr.ceil else rr.floor),
       satU8 (if p.g < col.g then gg.ceil else gg.floor),
       satU8 (if p.b < col.b then bb.ceil else bb.floor))
    else (satU8 p.r, satU8 p.g, satU8 p.b)
  ⟨rgb.1, rgb.2.1, rgb.2.2, satU8 (min ((a * 255).ceil) 255)⟩

/-- `set_eraser_point` (`src/renderer.rs:903-938`): every set, in-bounds
mask cell of the truncated-diameter kernel is written `(0,0,0,0)`. -/
def setEraserPoint (W H : ℕ) (L : Layer) (wq : ℚ) (x y : ℕ) : Layer :=
  let d := stampDiameter wq
  pointStampFold d (stampOk W H d (stampRadius d) x y (roundData d))
    (fun _ _ => Pixel.zero) (stampPos (stampRadius d) x y) L

/-- `set_pen_point` (`src/renderer.rs:701-773`).  `a1` is the stamp alpha
produced by `get_alpha(Pen)` before the loop (the pen curve's low branch
takes an `f64` square root; its value enters only through this parameter).
A zero `a1` aborts the stamp. -/
def setPenPoint (W H : ℕ) (L : Layer) (col : Pixel) (a1 : ℚ) (wq : ℚ)
    (x y : ℕ) : Layer :=
  let d := stampDiameter wq
  if a1 = 0 then L
  else
    pointStampFold d (stampOk W H d (stampRadius d) x y (roundData d))
      (fun _ p => penBlendPixel col a1 p) (stampPos (stampRadius d) x y) L

/-- `set_brush_point` (`src/renderer.rs:775-847`), as `setPenPoint` but with
the brush blend. -/
def setBrushPoint (W H : ℕ) (L : Layer) (col : Pixel) (a1 : ℚ) (wq : ℚ)
    (x y : ℕ) : Layer :=
  let d := stampDiameter wq
  if a1 = 0 then L
  else
    pointStampFold d (stampOk W H d (stampRadius d) x y (roundData d))
      (fun _ p => brushBlendPixel col a1 p) (stampPos (stampRadius d) x y) L

/-- `[0, 8, 2, 10, 12, 4, 14, 6, 3, 11, 1, 9, 15, 7, 13, 5]`
(`init_tone_data`, `src/renderer.rs:226-242`). -/
def toneBase : List ℕ := [0, 8, 2, 10, 12, 4, 14, 6, 3, 11, 1, 9, 15, 7, 13, 5]

/-- `tone_data[i]`: cell `j` is 1 iff `i ≥ toneBase[j]`. -/
def toneData (i : ℕ) : List ℕ :=
  (List.range 16).map (fun j => if toneBase.getD j 0 ≤ i then 1 else 0)

/-- `get_tone_data` (`src/renderer.rs:244-256`): the first threshold the
alpha is below selects the mask, the last mask if none. -/
def toneAlphaTable : List ℕ :=
  [23, 47, 69, 92, 114, 114, 114, 138, 161, 184, 184, 207, 230, 230, 253]

def getToneIndex (alpha : ℕ) : ℕ :=
  match toneAlphaTable.findIdx? (fun t => alpha < t) with
  | some i => i
  | none => toneAlphaTable.length

/-- `set_tone_point` (`src/renderer.rs:849-901`): within the kernel, write
the opaque stroke colour at cells where the 4×4 ordered-dither mask selected
by the colour alpha fires at `((y+i) mod 4)·4 + (x+j) mod 4`. -/
def setTonePoint (W H : ℕ) (L : Layer) (col : Pixel) (wq : ℚ) (x y : ℕ) :
    Layer :=
  let d := stampDiameter wq
  pointStampFold d
    (fun ij => stampOk W H d (stampRadius d) x y (roundData d) ij ∧
      (toneData (getToneIndex col.a)).getD
        ((y + ij.1) % 4 * 4 + (x + ij.2) % 4) 0 = 1)
    (fun _ _ => ⟨col.r, col.g, col.b, 255⟩) (stampPos (stampRadius d) x y) L

/-- Pixel `(px, py)` is addressed by some set, in-bounds mask cell of the
diameter-`d` kernel centred at `(x, y)`. -/
def stampHits (W H d x y px py : ℕ) : Prop :=
  px < W ∧ py < H ∧ ∃ ii jj, ii < d ∧ jj < d ∧
    (roundData d).getD (ii * d + jj) 0 = 1 ∧
    px + stampRadius d = x + jj ∧ py + stampRadius d = y + ii

theorem stampHits_iff_okCell (W H d x y px py : ℕ) :
    stampHits W H d x y px py ↔
      ∃ c ∈ stampCells d, stampOk W H d (stampRadius d) x y (roundData d) c ∧
        stampPos (stampRadius d) x y c = (px, py) := by
  constructor
  · rintro ⟨hw, hh, ii, jj, hii, hjj, hmask, hx, hy⟩
    refine ⟨(ii, jj), stampCells_mem.mpr ⟨hii, hjj⟩, ⟨hmask, ?_, ?_, ?_, ?_⟩, ?_⟩
    · omega
    · omega
    · omega
    · omega
    · unfold stampPos
      simp only
      refine Prod.ext ?_ ?_ <;> simp <;> omega
  · rintro ⟨⟨ii, jj⟩, hc, ⟨hmask, h1, h2, h3, h4⟩, hpos⟩
    obtain ⟨hii, hjj⟩ := stampCells_mem.mp hc
    unfold stampPos at hpos
    have hpx := congrArg Prod.fst hpos
    have hpy := congrArg Prod.snd hpos
    simp only at hpx hpy
    refine ⟨by omega, by omega, ii, jj, hii, hjj, hmask, by omega, by omega⟩

instance (W H d x y px py : ℕ) : Decidable (stampHits W H d x y px py) :=
  decidable_of_iff _ (stampHits_iff_okCell W H d x y px py).symm

theorem setEraserPoint_spec (W H : ℕ) (L : Layer) (wq : ℚ) (x y px py : ℕ) :
    setEraserPoint W H L wq x y px py =
      if stampHits W H (stampDiameter wq) x y px py then Pixel.zero
      else L px py := by
  by_cases hs : stampHits W H (stampDiameter wq) x y px py
  · rw [if_pos hs]
    obtain ⟨c, hc, hok, hpos⟩ := (stampHits_iff_okCell _ _ _ _ _ _ _).mp hs
    unfold setEraserPoint pointStampFold
    have hh := stampWriteFold_hit (stampCells (stampDiameter wq))
      (stampOk W H (stampDiameter wq) (stampRadius (stampDiameter wq)) x y
        (roundData (stampDiameter wq)))
      (fun _ _ => Pixel.zero) (stampPos (stampRadius (stampDiameter wq)) x y)
      (stampCells_nodup _) (stampPos_inj W H _ _ x y (roundData _)) c hc hok L
    rw [hpos] at hh
    simpa using hh
  · rw [if_neg hs]
    unfold setEraserPoint pointStampFold
    have hfr : ∀ e ∈ stampCells (stampDiameter wq),
        stampOk W H (stampDiameter wq) (stampRadius (stampDiameter wq)) x y
          (roundData (stampDiameter wq)) e →
        stampPos (stampRadius (stampDiameter wq)) x y e ≠ (px, py) :=
      fun e he hok heq =>
        hs ((stampHits_iff_okCell _ _ _ _ _ _ _).mpr ⟨e, he, hok, heq⟩)
    exact stampWriteFold_frame _ _ (fun _ _ => Pixel.zero) _ L (px, py) hfr

theorem setPenPoint_spec (W H : ℕ) (L : Layer) (col : Pixel) (a1 wq : ℚ)
    (x y px py : ℕ) (ha : a1 ≠ 0) :
    setPenPoint W H L col a1 wq x y px py =
      if stampHits W H (stampDiameter wq) x y px py then
        penBlendPixel col a1 (L px py)
      else L px py := by
  unfold setPenPoint
  rw [if_neg ha]
  by_cases hs : stampHits W H (stampDiameter wq) x y px py
  · rw [if_pos hs]
    obtain ⟨c, hc, hok, hpos⟩ := (stampHits_iff_okCell _ _ _ _ _ _ _).mp hs
    unfold pointStampFold
    have hh := stampWriteFold_hit (stampCells (stampDiameter wq))
      (stampOk W H (stampDiameter wq) (stampRadius (stampDiameter wq)) x y
        (roundData (stampDiameter wq)))
      (fun _ p => penBlendPixel col a1 p)
      (stampPos (stampRadius (stampDiameter wq)) x y)
      (stampCells_nodup _) (stampPos_inj W H _ _ x y (roundData _)) c hc hok L
    rw [hpos] at hh
    simpa using hh
  · rw [if_neg hs]
    unfold pointStampFold
    have hfr : ∀ e ∈ stampCells (stampDiameter wq),
        stampOk W H (stampDiameter wq) (stampRadius (stampDiameter wq)) x y
          (roundData (stampDiameter wq)) e →
        stampPos (stampRadius (stampDiameter wq)) x y e ≠ (px, py) :=
      fun e he hok heq =>
        hs ((stampHits_iff_okCell _ _ _ _ _ _ _).mpr ⟨e, he, hok, heq⟩)
    exact stampWriteFold_frame _ _ (fun _ p => penBlendPixel col a1 p) _ L (px, py) hfr

theorem setBrushPoint_frame (W H : ℕ) (L : Layer) (col : Pixel) (a1 wq : ℚ)
    (x y px py : ℕ) (hs : ¬ stampHits W H (stampDiameter wq) x y px py) :
    setBrushPoint W H L col a1 wq x y px py = L px py := by
  unfold setBrushPoint
  split
  · rfl
  · unfold pointStampFold
    have hfr : ∀ e ∈ stampCells (stampDiameter wq),
        stampOk W H (stampDiameter wq) (stampRadius (stampDiameter wq)) x y
          (roundData (stampDiameter wq)) e →
        stampPos (stampRadius (stampDiameter wq)) x y e ≠ (px, py) :=
      fun e he hok heq =>
        hs ((stampHits_iff_okCell _ _ _ _ _ _ _).mpr ⟨e, he, hok, heq⟩)
    exact stampWriteFold_frame _ _ (fun _ p => brushBlendPixel col a1 p) _ L (px, py) hfr

theorem setTonePoint_frame (W H : ℕ) (L : Layer) (col : Pixel) (wq : ℚ)
    (x y px py : ℕ) (hs : ¬ stampHits W H (stampDiameter wq) x y px py) :
    setTonePoint W H L col wq x y px py = L px py := by
  unfold setTonePoint pointStampFold
  have hfr : ∀ e ∈ stampCells (stampDiameter wq),
      (stampOk W H (stampDiameter wq) (stampRadius (stampDiameter wq)) x y
          (roundData (stampDiameter wq)) e ∧
        (toneData (getToneIndex col.a)).getD
          ((y + e.1) % 4 * 4 + (x + e.2) % 4) 0 = 1) →
      stampPos (stampRadius (stampDiameter wq)) x y e ≠ (px, py) :=
    fun e he hok heq =>
      hs ((stampHits_iff_okCell _ _ _ _ _ _ _).mpr ⟨e, he, hok.1, heq⟩)
  exact stampWriteFold_frame _ _ (fun _ _ => (⟨col.r, col.g, col.b, 255⟩ : Pixel)) _ L (px, py) hfr

/-- C2 — corrected.  The kernel diameter is
`d = clamp(trunc(width), 1, 30)`: the `f64 → usize` cast **truncates**, so a
fractional width such as 2.7 selects the 2×2 kernel, not the 3×3 one the
claim's `round` predicts.  With that `d`, each stamp processes pixel
`(x − ⌊d/2⌋ + j, y − ⌊d/2⌋ + i)` exactly for the set cells `(i, j)` of
`round[d]`: the eraser clears exactly those in-bounds pixels, the pen (with
a nonzero stamp alpha) blends exactly those, and the brush and tone stamps
touch no pixel outside them. -/
theorem claim_C2_stamp_geometry_truncated_diameter (W H : ℕ) (L : Layer)
    (col : Pixel) (a1 wq : ℚ) (x y px py : ℕ) :
    (setEraserPoint W H L wq x y px py =
      if stampHits W H (stampDiameter wq) x y px py then Pixel.zero
      else L px py) ∧
    (a1 ≠ 0 → setPenPoint W H L col a1 wq x y px py =
      if stampHits W H (stampDiameter wq) x y px py then
        penBlendPixel col a1 (L px py)
      else L px py) ∧
    (¬ stampHits W H (stampDiameter wq) x y px py →
      setBrushPoint W H L col a1 wq x y px py = L px py ∧
      setTonePoint W H L col wq x y px py = L px py) ∧
    1 ≤ stampDiameter wq ∧ stampDiameter wq ≤ 30 := by
  refine ⟨setEraserPoint_spec W H L wq x y px py,
    fun ha => setPenPoint_spec W H L col a1 wq x y px py ha,
    fun hs => ⟨setBrushPoint_frame W H L col a1 wq x y px py hs,
      setTonePoint_frame W H L col wq x y px py hs⟩, ?_, ?_⟩
  · unfold stampDiameter
    omega
  · unfold stampDiameter
    omega

unseal Rat.add Rat.mul Rat.sub Rat.inv Rat.ofScientific in
/-- Witness for C2: the eraser and pen characterizations at width 2.7,
centre `(5,5)`, pixel `(4,4)` on a blank 8×8 layer, with pen alpha 1
(the pen curve at colour alpha 255). -/
theorem claim_C2_stamp_geometry_truncated_diameter_witness :
    (setEraserPoint 8 8 (fun _ _ => Pixel.zero) (27 / 10) 5 5 4 4 =
      if stampHits 8 8 (stampDiameter (27 / 10)) 5 5 4 4 then Pixel.zero
      else Pixel.zero) ∧
    (setPenPoint 8 8 (fun _ _ => Pixel.zero) ⟨0, 0, 0, 255⟩ 1 (27 / 10) 5 5 4 4 =
      if stampHits 8 8 (stampDiameter (27 / 10)) 5 5 4 4 then
        penBlendPixel ⟨0, 0, 0, 255⟩ 1 Pixel.zero
      else Pixel.zero) := by
  have h := claim_C2_stamp_geometry_truncated_diameter 8 8
    (fun _ _ => Pixel.zero) ⟨0, 0, 0, 255⟩ 1 (27 / 10) 5 5 4 4
  exact ⟨h.1, h.2.1 (by norm_num)⟩

/-- Modelled from the claim's words (for refutation only): diameter
`clamp(round(width), 1, 30)` with `f64::round` (half away from zero; for
nonnegative widths this is `⌊w + 1/2⌋`). -/
def stampDiameterSpecC2 (w : ℚ) : ℕ := min (max (qToNat (w + 1 / 2)) 1) 30

unseal Rat.add Rat.mul Rat.sub Rat.inv Rat.ofScientific in
/-- C2 counterexample at width 2.7: the code truncates to the 2×2 kernel
while the claim's rounding selects the 3×3 one.  Stamping an opaque pen at
`(5,5)` on a blank 8×8 layer paints pixel `(4,4)` — which the claim's 3×3
cross kernel (corner cell `(0,0)` cleared) says must stay untouched — and
leaves pixel `(6,5)` blank although the claim's set cell `(1,2)` says it
must be painted. -/
theorem claim_C2_counterexample :
    stampDiameter (27 / 10) = 2 ∧ stampDiameterSpecC2 (27 / 10) = 3 ∧
      setPenPoint 8 8 (fun _ _ => Pixel.zero) ⟨0, 0, 0, 255⟩ 1 (27 / 10) 5 5 4 4 =
        ⟨0, 0, 0, 255⟩ ∧
      (roundData 3).getD (0 * 3 + 0) 0 = 0 ∧
      setPenPoint 8 8 (fun _ _ => Pixel.zero) ⟨0, 0, 0, 255⟩ 1 (27 / 10) 5 5 6 5 =
        Pixel.zero ∧
      (roundData 3).getD (1 * 3 + 2) 0 = 1 := by
  refine ⟨by decide, by decide, by decide, by decide, by decide, by decide⟩

/-! ## Drawing state and renderer (`DrawingState`, `src/lib.rs:74-81`;
`Renderer`, `src/renderer.rs:17-24`) -/

/-- `MaskType` (`src/lib.rs:57-64`). -/
inductive MaskType : Type where
  | noMask
  | normal
  | reverse
  | add
  | sub
  deriving DecidableEq, Repr

/-- `MaskType::from(i64)` (`src/lib.rs:180-190`). -/
def maskTypeOfInt (v : ℤ) : MaskType :=
  if v = 1 then .normal
  else if v = 2 then .reverse
  else if v = 3 then .add
  else if v = 4 then .sub
  else .noMask

/-- `DrawingState` (`src/lib.rs:74-81`). -/
structure DrawingState where
  currentColor : Pixel
  currentMask : Pixel
  currentWidth : ℚ
  currentMaskType : MaskType
  aerr : ℚ
  deriving DecidableEq, Repr

/-- `DrawingState::default()` (`src/lib.rs:153-163`). -/
def defaultDrawingState : DrawingState :=
  ⟨⟨0, 0, 0, 255⟩, ⟨0, 0, 0, 0⟩, 1, .noMask, 0⟩

/-- The engine (`Renderer`): canvas, drawing state and clipboard.  The
kernel tables (`round_data` / `tone_data`) are immutable after construction
and live as the global definitions `roundData` / `toneData`; the optional
system font is external. -/
structure Renderer where
  canvas : Canvas
  state : DrawingState
  clipboard : Option (List ℕ)

/-- `Canvas::clear` (`src/renderer.rs:40-46`): every pixel of both layers
becomes `(0,0,0,0)`. -/
def Canvas.clearAll (c : Canvas) : Canvas :=
  { c with layers := fun _ => fun _ _ => Pixel.zero }

/-- `Canvas::clear_layer` (`src/renderer.rs:48-54`): out-of-range layers are
ignored. -/
def Canvas.clearLayer (c : Canvas) (layer : ℕ) : Canvas :=
  if h : layer < 2 then
    { c with layers := fun k =>
        if k = ⟨layer, h⟩ then fun _ _ => Pixel.zero else c.layers k }
  else c

/-- The `clearCanvas` opcode (`clear_canvas`, `src/renderer.rs:348-350`). -/
def clearCanvasAct (r : Renderer) : Renderer :=
  { r with canvas := r.canvas.clearAll }

/-- The `eraseAll(layer)` opcode (`erase_all`, `src/renderer.rs:352-359`):
with at least two slots and a float in slot 1, clear that layer (the
`f64 as usize` cast truncating); otherwise do nothing.  (An `Integer` slot
does not match the `ActionValue::Number` pattern and is ignored, as in the
source.) -/
def eraseAllAct (r : Renderer) (action : List ActionValue) : Renderer :=
  if 2 ≤ action.length then
    match action.getD 1 (.str "") with
    | .num n => { r with canvas := r.canvas.clearLayer (qToNat n) }
    | _ => r
  else r

/-- C10 — confirmed.  `clearCanvas` and `eraseAll` modify only layer pixel
buffers (every affected pixel becomes `(0,0,0,0)`; `clearCanvas` clears all
of them): the drawing state (colour, mask colour, width, mask type, `aerr`),
the clipboard, the current-layer index, the visibility flags — and for good
measure the canvas dimensions — are untouched. -/
theorem claim_C10_clear_ops_touch_only_pixels (r : Renderer)
    (action : List ActionValue) :
    ((clearCanvasAct r).state = r.state ∧
      (clearCanvasAct r).clipboard = r.clipboard ∧
      (clearCanvasAct r).canvas.currentLayer = r.canvas.currentLayer ∧
      (clearCanvasAct r).canvas.visible = r.canvas.visible ∧
      (clearCanvasAct r).canvas.width = r.canvas.width ∧
      (clearCanvasAct r).canvas.height = r.canvas.height ∧
      ∀ k i j, (clearCanvasAct r).canvas.layers k i j = Pixel.zero) ∧
    ((eraseAllAct r action).state = r.state ∧
      (eraseAllAct r action).clipboard = r.clipboard ∧
      (eraseAllAct r action).canvas.currentLayer = r.canvas.currentLayer ∧
      (eraseAllAct r action).canvas.visible = r.canvas.visible ∧
      (eraseAllAct r action).canvas.width = r.canvas.width ∧
      (eraseAllAct r action).canvas.height = r.canvas.height ∧
      ∀ k i j, (eraseAllAct r action).canvas.layers k i j = r.canvas.layers k i j ∨
        (eraseAllAct r action).canvas.layers k i j = Pixel.zero) := by
  constructor
  · exact ⟨rfl, rfl, rfl, rfl, rfl, rfl, fun _ _ _ => rfl⟩
  · have hgen : ∀ c : Canvas, ∀ n : ℕ,
        (c.clearLayer n).currentLayer = c.currentLayer ∧
        (c.clearLayer n).visible = c.visible ∧
        (c.clearLayer n).width = c.width ∧
        (c.clearLayer n).height = c.height ∧
        ∀ k i j, (c.clearLayer n).layers k i j = c.layers k i j ∨
          (c.clearLayer n).layers k i j = Pixel.zero := by
      intro c n
      unfold Canvas.clearLayer
      split
      · refine ⟨rfl, rfl, rfl, rfl, ?_⟩
        intro k i j
        by_cases hk : k = (⟨n, by omega⟩ : Fin 2)
        · right
          simp only [if_pos hk]
        · left
          simp only [if_neg hk]
      · exact ⟨rfl, rfl, rfl, rfl, fun _ _ _ => Or.inl rfl⟩
    unfold eraseAllAct
    split
    · cases action.getD 1 (.str "") with
      | num n =>
        obtain ⟨h1, h2, h3, h4, h5⟩ := hgen r.canvas (qToNat n)
        exact ⟨rfl, rfl, h1, h2, h3, h4, h5⟩
      | str ss => exact ⟨rfl, rfl, rfl, rfl, rfl, rfl, fun _ _ _ => Or.inl rfl⟩
      | int n => exact ⟨rfl, rfl, rfl, rfl, rfl, rfl, fun _ _ _ => Or.inl rfl⟩
    · exact ⟨rfl, rfl, rfl, rfl, rfl, rfl, fun _ _ _ => Or.inl rfl⟩

/-! ## Flood fill (`do_flood_fill`, `src/renderer.rs:1151-1247`) -/

def extendLeft (base : ℕ) (L : Layer) (py : ℕ) : ℕ → ℕ
  | 0 => 0
  | x0 + 1 => if packPixel (L x0 py) = base then extendLeft base L py x0 else x0 + 1

def extendRight (W base : ℕ) (L : Layer) (py : ℕ) (x1 : ℕ) : ℕ :=
  if x1 < W - 1 ∧ packPixel (L (x1 + 1) py) = base then
    extendRight W base L py (x1 + 1)
  else x1
termination_by W - 1 - x1
decreasing_by
  rename_i h
  omega

def paintRun (fillPx : Pixel) (L : Layer) (py x0 x1 : ℕ) : Layer :=
  fun i j => if x0 ≤ i ∧ i ≤ x1 ∧ j = py then fillPx else L i j

def floodPushes (H py x0 x1 : ℕ) : List (ℕ × ℕ) :=
  ((if py + 1 < H then (List.range' x0 (x1 + 1 - x0)).map (fun t => (t, py + 1))
    else []) ++
   (if 0 < py then (List.range' x0 (x1 + 1 - x0)).map (fun t => (t, py - 1))
    else [])).reverse

def nonFillCount (W H : ℕ) (fillPx : Pixel) (L : Layer) : ℕ :=
  ((List.range W).map
    (fun i => (List.range H).countP (fun j => ! (L i j == fillPx)))).sum

theorem extendLeft_le (base : ℕ) (L : Layer) (py x0 : ℕ) :
    extendLeft base L py x0 ≤ x0 := by
  induction x0 with
  | zero => exact le_refl _
  | succ x ih =>
    unfold extendLeft
    split
    · omega
    · exact le_refl _

theorem extendRight_ge (W base : ℕ) (L : Layer) (py x1 : ℕ) :
    x1 ≤ extendRight W base L py x1 := by
  induction x1 using extendRight.induct W base L py with
  | case1 x1 h ih =>
    rw [extendRight, if_pos h]
    omega
  | case2 x1 h =>
    rw [extendRight, if_neg h]

theorem countP_lt_of_witness {α : Type} {p q : α → Bool} {l : List α}
    (himp : ∀ a ∈ l, p a = true → q a = true) {a : α} (ha : a ∈ l)
    (hqa : q a = true) (hpa : p a = false) :
    l.countP p < l.countP q := by
  induction l with
  | nil => cases ha
  | cons b t ih =>
    rw [List.countP_cons, List.countP_cons]
    rcases List.mem_cons.mp ha with rfl | hat
    · rw [hpa, hqa]
      have hle := List.countP_mono_left
        (fun x hx => himp x (List.mem_cons_of_mem _ hx))
      simp only [Bool.false_eq_true, if_false, if_true]
      omega
    · have hbt : (if p b = true then 1 else 0) ≤ (if q b = true then 1 else 0) := by
        by_cases hb : p b = true
        · rw [if_pos hb, if_pos (himp b (List.mem_cons_self b t) hb)]
        · rw [if_neg hb]
          split <;> omega
      have hlt := ih (fun x hx hpx => himp x (List.mem_cons_of_mem _ hx) hpx) hat
      simp only [Bool.decide_eq_true] at hbt ⊢
      omega

theorem nonFillCount_paint_lt (W H : ℕ) (fillPx : Pixel) (L : Layer)
    (py x0 x1 px : ℕ) (h0 : x0 ≤ px) (h1 : px ≤ x1) (hW : px < W) (hH : py < H)
    (hne : L px py ≠ fillPx) :
    nonFillCount W H fillPx (paintRun fillPx L py x0 x1) <
      nonFillCount W H fillPx L := by
  unfold nonFillCount
  apply List.sum_lt_sum
  · intro i _
    apply List.countP_mono_left
    intro j _ hpj
    simp only [Bool.not_eq_eq_eq_not, Bool.not_true, beq_eq_false_iff_ne, ne_eq] at hpj ⊢
    unfold paintRun at hpj
    by_cases hc : x0 ≤ i ∧ i ≤ x1 ∧ j = py
    · rw [if_pos hc] at hpj
      exact absurd rfl hpj
    · rwa [if_neg hc] at hpj
  · refine ⟨px, List.mem_range.mpr hW, ?_⟩
    apply countP_lt_of_witness (a := py)
    · intro j _ hpj
      simp only [Bool.not_eq_eq_eq_not, Bool.not_true, beq_eq_false_iff_ne, ne_eq] at hpj ⊢
      unfold paintRun at hpj
      by_cases hc : x0 ≤ px ∧ px ≤ x1 ∧ j = py
      · rw [if_pos hc] at hpj
        exact absurd rfl hpj
      · rwa [if_neg hc] at hpj
    · exact List.mem_range.mpr hH
    · simp only [Bool.not_eq_eq_eq_not, Bool.not_true, beq_eq_false_iff_ne, ne_eq]
      exact hne
    · have hpx : paintRun fillPx L py x0 x1 px py = fillPx := by
        unfold paintRun
        rw [if_pos ⟨h0, h1, rfl⟩]
      rw [hpx]
      simp

def floodLoop (W H base : ℕ) (fillPx : Pixel) :
    Layer → List (ℕ × ℕ) → Layer × Bool
  | L, [] => (L, false)
  | L, (px, py) :: rest =>
    if 1000000 < rest.length then (L, true)
    else if W ≤ px ∨ H ≤ py then floodLoop W H base fillPx L rest
    else if packPixel (L px py) = packPixel fillPx ∨ packPixel (L px py) ≠ base then
      floodLoop W H base fillPx L rest
    else
      let x0 := extendLeft base L py px
      let x1 := extendRight W base L py px
      floodLoop W H base fillPx
        (paintRun fillPx L py x0 x1) (floodPushes H py x0 x1 ++ rest)
termination_by L stack => (nonFillCount W H fillPx L, stack.length)
decreasing_by
  · apply Prod.Lex.right
    simp
  · apply Prod.Lex.right
    simp
  · apply Prod.Lex.left
    rename_i hoob hskip
    push_neg at hoob hskip
    refine nonFillCount_paint_lt W H fillPx L py _ _ px
      (extendLeft_le base L py px) (extendRight_ge W base L py px)
      (by omega) (by omega) ?_
    intro hcell
    exact hskip.1 (by rw [hcell])

/-- `do_flood_fill(layer, x, y, fill_color)`: bounds-check the seed (the
`i32 → u32` casts send negative coordinates out of range), read the base
colour, return unchanged when the base alpha byte is zero (the source's
`(base_color & 0xff000000) == 0`: bits 24-31 all zero, equivalently
`base / 2^24 % 2^8 = 0`) or the base already equals the fill colour,
otherwise run the worklist loop seeded at
`(x, y)`.  The second component reports whether the worklist cap was hit.
The loop compares pixels against `packPixel (unpackPixel fill)`, which for
the `u32` fill colours supplied by `flood_fill` equals `fill` itself. -/
def doFloodFill (c : Canvas) (layer : ℕ) (xi yi : ℤ) (fill : ℕ) :
    Canvas × Bool :=
  if hl : 2 ≤ layer then (c, false)
  else
    let x := i32ToU32 xi
    let y := i32ToU32 yi
    if c.width ≤ x ∨ c.height ≤ y then (c, false)
    else
      let li : Fin 2 := ⟨layer, by omega⟩
      let base := packPixel (c.layers li x y)
      if base / 2 ^ 24 % 2 ^ 8 = 0 ∨ base = fill then (c, false)
      else
        let res := floodLoop c.width c.height base (unpackPixel fill)
          (c.layers li) [(x, y)]
        ({ c with layers := fun k => if k = li then res.1 else c.layers k },
          res.2)

/-! ## Action dispatch (`execute_action` and the opcode handlers,
`src/renderer.rs:316-645`) -/

/-- `get_number` (`src/renderer.rs:1473-1482`): `Number` and `Integer` slots
yield a float; a `String` slot is the error `"Expected number"`. -/
def getNumber : ActionValue → Except String ℚ
  | .num n => .ok n
  | .int n => .ok (n : ℚ)
  | .str _ => .error "Expected number"

/-- `f64 as u8`: truncation toward zero, saturating into `[0, 255]`. -/
def qToU8 (q : ℚ) : ℕ := if q ≤ 0 then 0 else min 255 q.floor.toNat

/-- `f64 as u32`: truncation toward zero, saturating into the `u32` range. -/
def qToU32 (q : ℚ) : ℕ := if q ≤ 0 then 0 else min (2 ^ 32 - 1) q.floor.toNat

/-- `f64 as i32`: truncation toward zero, saturating at the `i32` bounds. -/
def qToI32 (q : ℚ) : ℤ :=
  max (-(2 ^ 31)) (min (2 ^ 31 - 1) (if q ≤ 0 then -((-q).floor) else q.floor))

/-- `f64 as i64`: truncation toward zero, saturating at the `i64` bounds. -/
def qToI64 (q : ℚ) : ℤ :=
  max (-(2 ^ 63)) (min (2 ^ 63 - 1) (if q ≤ 0 then -((-q).floor) else q.floor))

/-- `LineType` (`src/lib.rs:38-48`). -/
inductive LineType : Type where
  | noneL
  | pen
  | eraser
  | brush
  | tone
  | dodge
  | burn
  | blur
  deriving DecidableEq, Repr

/-- `LineType::from(i64)` (`src/lib.rs:165-178`). -/
def lineTypeOfInt (v : ℤ) : LineType :=
  if v = 1 then .pen
  else if v = 2 then .eraser
  else if v = 3 then .brush
  else if v = 4 then .tone
  else if v = 5 then .dodge
  else if v = 6 then .burn
  else if v = 7 then .blur
  else .noneL

/-- `AlphaType` (`src/lib.rs:50-55`). -/
inductive AlphaType : Type where
  | pen
  | brush
  | fill
  deriving DecidableEq, Repr

/-- `get_alpha`'s pen curve (`src/renderer.rs:262-269`): the branch for
`a1 > 0.5` is exact rational arithmetic; the low branch takes
`sqrt(2·a1)/16`, with the `f64` square root supplied by the abstract
parameter `sqrtQ`. -/
def penAlpha (sqrtQ : ℚ → ℚ) (colA : ℕ) : ℚ :=
  let a1 : ℚ := (colA : ℚ) / 255
  clampUnit (if 1 / 2 < a1 then 1 / 16 + (a1 - 1 / 2) * 30 / 16
    else sqrtQ (2 * a1) / 16)

/-- `get_alpha` (`src/renderer.rs:258-291`): the curve for the alpha type
followed by the error-accumulation step; returns the stamp alpha and the
state with the updated `aerr`. -/
def getAlphaQ (sqrtQ : ℚ → ℚ) (t : AlphaType) (st : DrawingState) :
    ℚ × DrawingState :=
  let a1 := match t with
    | .pen => penAlpha sqrtQ st.currentColor.a
    | .fill => fillAlpha st.currentColor.a
    | .brush => brushAlpha st.currentColor.a
  let p := accumStep a1 st.aerr
  (p.1, { st with aerr := p.2 })

/-- Replace one layer of the renderer's canvas. -/
def Renderer.withLayer (r : Renderer) (li : Fin 2) (f : Layer → Layer) :
    Renderer :=
  let ls : Fin 2 → Layer := fun k =>
    if k = li then f (r.canvas.layers li) else r.canvas.layers k
  { r with canvas := { r.canvas with layers := ls } }

/-- `draw_point_with_origin` (`src/renderer.rs:688-699`): dispatch on the
line type, unrecognised types falling back to the pen.  Pen and brush call
`get_alpha` (mutating `aerr`) before stamping.  The stamps' early return on
an empty kernel row is omitted: the clamped diameter lies in `[1, 30]`,
where every `round_data` kernel is non-empty, so it never fires.  The
origin `(x0, y0)` is unused, as in the source (`set_tone_point` ignores its
`_x0, _y0`). -/
def drawPointWithOrigin (sqrtQ : ℚ → ℚ) (r : Renderer) (li : Fin 2)
    (x y _x0 _y0 : ℕ) (lt : LineType) : Renderer :=
  let W := r.canvas.width
  let H := r.canvas.height
  match lt with
  | .brush =>
    let p := getAlphaQ sqrtQ .brush r.state
    Renderer.withLayer { r with state := p.2 } li
      (fun L => setBrushPoint W H L r.state.currentColor p.1
        r.state.currentWidth x y)
  | .tone =>
    Renderer.withLayer r li
      (fun L => setTonePoint W H L r.state.currentColor r.state.currentWidth
        x y)
  | .eraser =>
    Renderer.withLayer r li
      (fun L => setEraserPoint W H L r.state.currentWidth x y)
  | _ =>
    let p := getAlphaQ sqrtQ .pen r.state
    Renderer.withLayer { r with state := p.2 } li
      (fun L => setPenPoint W H L r.state.currentColor p.1
        r.state.currentWidth x y)

/-- The Bresenham loop of `draw_line_segment` (`src/renderer.rs:662-680`).
The classic loop advances its dominant axis on every iteration and stops on
reaching the end point, after exactly `max dx dy + 1` iterations; the
recursion is fuelled with `dx + dy + 1` steps, an upper bound on that
count, so the fuelled recursion computes the same result as the source
loop. -/
def bresenhamLoop (draw : Renderer → ℕ → ℕ → Renderer) (W H : ℕ)
    (endX endY dx dy sx sy : ℤ) : ℕ → ℤ → ℤ → ℤ → Renderer → Renderer
  | 0, _, _, _, r => r
  | fuel + 1, cx, cy, err, r =>
    let r1 := if 0 ≤ cx ∧ 0 ≤ cy ∧ cx < (W : ℤ) ∧ cy < (H : ℤ) then
        draw r cx.toNat cy.toNat
      else r
    if cx = endX ∧ cy = endY then r1
    else
      let e2 := 2 * err
      let err1 := if -dy < e2 then err - dy else err
      let cx1 := if -dy < e2 then cx + sx else cx
      let err2 := if e2 < dx then err1 + dx else err1
      let cy1 := if e2 < dx then cy + sy else cy
      bresenhamLoop draw W H endX endY dx dy sx sy fuel cx1 cy1 err2 r1

/-- `draw_line_segment` (`src/renderer.rs:647-681`): Bresenham from
`(x0, y0)` to `(x1, y1)` (`u32` coordinates reinterpreted as `i32`),
drawing every in-bounds point with stroke origin `(x0, y0)`. -/
def drawLineSegment (sqrtQ : ℚ → ℚ) (r : Renderer) (li : Fin 2)
    (x0 y0 x1 y1 : ℕ) (lt : LineType) : Renderer :=
  let cx := u32ToI32 x0
  let cy := u32ToI32 y0
  let ex := u32ToI32 x1
  let ey := u32ToI32 y1
  let dx := |ex - cx|
  let dy := |ey - cy|
  let sx : ℤ := if cx < ex then 1 else -1
  let sy : ℤ := if cy < ey then 1 else -1
  bresenhamLoop (fun rr px py => drawPointWithOrigin sqrtQ rr li px py x0 y0 lt)
    r.canvas.width r.canvas.height ex ey dx dy sx sy
    (dx + dy + 1).toNat cx cy (dx - dy) r

/-- `update_drawing_state_from_action` (`src/renderer.rs:607-645`): with at
least 11 slots, each parameter group — colour (slots 2-5), mask colour
(6-8), width (9), mask type (10) — is updated exactly when all its slots
parse as numbers. -/
def updateStateFromAction (st : DrawingState) (action : List ActionValue) :
    DrawingState :=
  if action.length < 11 then st
  else
    let d : ActionValue := .str ""
    let st1 := match getNumber (action.getD 2 d), getNumber (action.getD 3 d),
        getNumber (action.getD 4 d), getNumber (action.getD 5 d) with
      | .ok r, .ok g, .ok b, .ok a =>
        { st with currentColor := ⟨qToU8 r, qToU8 g, qToU8 b, qToU8 a⟩ }
      | _, _, _, _ => st
    let st2 := match getNumber (action.getD 6 d), getNumber (action.getD 7 d),
        getNumber (action.getD 8 d) with
      | .ok r, .ok g, .ok b =>
        { st1 with currentMask := ⟨qToU8 r, qToU8 g, qToU8 b, 255⟩ }
      | _, _, _ => st1
    let st3 := match getNumber (action.getD 9 d) with
      | .ok w => { st2 with currentWidth := w }
      | _ => st2
    match getNumber (action.getD 10 d) with
    | .ok mt => { st3 with currentMaskType := maskTypeOfInt (qToI64 mt) }
    | _ => st3

/-- `rect_mask` (`src/renderer.rs:1114-1117`): border of thickness
`d = current_width as u32`; `saturating_sub` is ℕ subtraction. -/
def rectMask (stW : ℚ) (x y w h : ℕ) : Bool :=
  let d := qToU32 stW
  decide (x < d) || decide (w - (1 + d) < x) || decide (y < d) ||
    decide (h - (1 + d) < y)

/-- `ellipse_fill_mask` (`src/renderer.rs:1119-1126`).  The mask is only
evaluated with `w, h ≥ 1` (the fill loop is empty otherwise), so the
`width - 1` does not underflow. -/
def ellipseFillMask (x y w h : ℕ) : Bool :=
  let cx : ℚ := ((w : ℚ) - 1) / 2
  let cy : ℚ := ((h : ℚ) - 1) / 2
  decide (((x : ℚ) - cx) ^ 2 / (cx + 1) ^ 2 +
    ((y : ℚ) - cy) ^ 2 / (cy + 1) ^ 2 < 1)

/-- `ellipse_mask` (`src/renderer.rs:1128-1149`): an elliptic ring of
thickness `current_width`, degenerating to the filled ellipse when the
radii do not exceed the width. -/
def ellipseMask (stW : ℚ) (x y w h : ℕ) : Bool :=
  let cx : ℚ := ((w : ℚ) - 1) / 2
  let cy : ℚ := ((h : ℚ) - 1) / 2
  if cx ≤ stW ∨ cy ≤ stW then ellipseFillMask x y w h
  else
    decide (((x : ℚ) - cx) ^ 2 / (cx + 1) ^ 2 +
        ((y : ℚ) - cy) ^ 2 / (cy + 1) ^ 2 < 1) &&
      decide (1 ≤ ((x : ℚ) - cx) ^ 2 / (cx - stW + 1) ^ 2 +
        ((y : ℚ) - cy) ^ 2 / (cy - stW + 1) ^ 2)

/-- `apply_fill_mask` (`src/renderer.rs:1100-1108`): fill types 20-23;
anything else masks everything off. -/
def applyFillMask (stW : ℚ) (x y w h fillType : ℕ) : Bool :=
  if fillType = 20 then rectMask stW x y w h
  else if fillType = 21 then true
  else if fillType = 22 then ellipseMask stW x y w h
  else if fillType = 23 then ellipseFillMask x y w h
  else false

/-- The per-cell blend of `do_fill` (`src/renderer.rs:1063-1092`): straight
alpha over with `a1x = a1` (no `1/255` floor here, unlike the pen), channel
rounding directed by the `c1 > c0` comparison, and the new alpha
`ceil(a·255)`; when the blended alpha is zero the channels are kepts. -/
def fillBlendPixel (col : Pixel) (a1 : ℚ) (p : Pixel) : Pixel :=
  let a0 : ℚ := (p.a : ℚ) / 255
  let a := a0 + a1 - a0 * a1
  let ax := 1 + a0 * (1 - a1)
  let ch := fun (c1 c0 : ℕ) =>
    let v := ((c1 : ℚ) + (c0 : ℚ) * a0 * (1 - a1)) / ax
    if c0 < c1 then satU8 ⌈v⌉ else satU8 ⌊v⌋
  if 0 < a then
    ⟨ch col.r p.r, ch col.g p.g, ch col.b p.b, satU8 ⌈a * 255⌉⟩
  else
    ⟨p.r, p.g, p.b, satU8 ⌈a * 255⌉⟩

/-- `do_fill` (`src/renderer.rs:1040-1098`): an invalid layer returns
before `get_alpha`; otherwise the fill alpha is drawn (`fillAlpha` plus the
accumulation step, updating `aerr`) and every cell of the clamped rectangle
(the `u32` sums `x + width` / `y + height` wrap) whose local coordinates
pass the fill-type mask is blended.  Each cell
reads only itself, so the rectangle loop is a pointwise update. -/
def doFill (c : Canvas) (st : DrawingState) (layer x y w h fillType : ℕ) :
    Canvas × DrawingState :=
  if hl : 2 ≤ layer then (c, st)
  else
    let li : Fin 2 := ⟨layer, by omega⟩
    let p := accumStep (fillAlpha st.currentColor.a) st.aerr
    let ex := min (u32Add x w) c.width
    let ey := min (u32Add y h) c.height
    ({ c with layers := fun k =>
        if k = li then fun i j =>
          if (x ≤ i ∧ i < ex) ∧ (y ≤ j ∧ j < ey) ∧
              applyFillMask st.currentWidth (i - x) (j - y) w h fillType
                = true then
            fillBlendPixel st.currentColor p.1 (c.layers li i j)
          else c.layers li i j
        else c.layers k },
      { st with aerr := p.2 })

/-- The point loop of `free_hand` (`src/renderer.rs:386-395`): while
`i + 3 < len`, parse four coordinates (a non-numeric slot aborts with the
`get_number` error) and draw a segment, advancing by two slots. -/
def freeHandLoop (sqrtQ : ℚ → ℚ) (action : List ActionValue) (li : Fin 2)
    (lt : LineType) (r : Renderer) (i : ℕ) : Except String Renderer :=
  if h : i + 3 < action.length then do
    let d : ActionValue := .str ""
    let x0 ← getNumber (action.getD i d)
    let y0 ← getNumber (action.getD (i + 1) d)
    let x1 ← getNumber (action.getD (i + 2) d)
    let y1 ← getNumber (action.getD (i + 3) d)
    freeHandLoop sqrtQ action li lt
      (drawLineSegment sqrtQ r li (qToU32 x0) (qToU32 y0) (qToU32 x1)
        (qToU32 y1) lt) (i + 2)
  else .ok r
termination_by action.length - i
decreasing_by
  omega

/-- `free_hand` (`src/renderer.rs:361-398`): fewer than 12 slots or a
non-`Number` / out-of-range layer skip; otherwise update the drawing state,
read the line type from slot 11 (defaulting to pen) and run the point
loop. -/
def freeHandAct (sqrtQ : ℚ → ℚ) (r : Renderer) (action : List ActionValue) :
    Except String Renderer :=
  if action.length < 12 then .ok r
  else
    match action.getD 1 (.str "") with
    | .num n =>
      if hl : 2 ≤ qToNat n then .ok r
      else
        let r1 := { r with state := updateStateFromAction r.state action }
        let lt := match action.getD 11 (.str "") with
          | .num m => lineTypeOfInt (qToI64 m)
          | _ => .pen
        freeHandLoop sqrtQ action ⟨qToNat n, by omega⟩ lt r1 12
    | _ => .ok r

/-- `draw_line` (`src/renderer.rs:400-428`): like `free_hand` but with a
single segment at slots 12-15 and a 16-slot minimum. -/
def lineAct (sqrtQ : ℚ → ℚ) (r : Renderer) (action : List ActionValue) :
    Except String Renderer :=
  if action.length < 16 then .ok r
  else
    match action.getD 1 (.str "") with
    | .num n =>
      if hl : 2 ≤ qToNat n then .ok r
      else
        let r1 := { r with state := updateStateFromAction r.state action }
        let lt := match action.getD 11 (.str "") with
          | .num m => lineTypeOfInt (qToI64 m)
          | _ => .pen
        let d : ActionValue := .str ""
        do
          let x0 ← getNumber (action.getD 12 d)
          let y0 ← getNumber (action.getD 13 d)
          let x1 ← getNumber (action.getD 14 d)
          let y1 ← getNumber (action.getD 15 d)
          .ok (drawLineSegment sqrtQ r1 ⟨qToNat n, by omega⟩ (qToU32 x0)
            (qToU32 y0) (qToU32 x1) (qToU32 y1) lt)
    | _ => .ok r

/-- `fill` (`src/renderer.rs:436-490`): fewer than 16 slots is a hard
error; a non-`Number` layer skips; slots 2-10 update the drawing state
exactly as `update_drawing_state_from_action` does (the source repeats
that code verbatim; its length guard is satisfied here); slots 11-15 are
required numbers feeding `do_fill`. -/
def fillAct (r : Renderer) (action : List ActionValue) :
    Except String Renderer :=
  if action.length < 16 then
    .error "Fill action requires at least 16 parameters"
  else
    match action.getD 1 (.str "") with
    | .num n =>
      let st1 := updateStateFromAction r.state action
      let d : ActionValue := .str ""
      do
        let x ← getNumber (action.getD 11 d)
        let y ← getNumber (action.getD 12 d)
        let w ← getNumber (action.getD 13 d)
        let h ← getNumber (action.getD 14 d)
        let ft ← getNumber (action.getD 15 d)
        let res := doFill r.canvas st1 (qToNat n) (qToU32 x) (qToU32 y)
          (qToU32 w) (qToU32 h) (qToU32 ft)
        .ok { r with canvas := res.1, state := res.2 }
    | _ => .ok r

/-- `flood_fill` (`src/renderer.rs:492-507`): fewer than 5 slots is a hard
error; a non-`Number` layer skips; slots 2-4 are required numbers feeding
`do_flood_fill` (whose worklist cap only breaks the loop — never an
error). -/
def floodFillAct (r : Renderer) (action : List ActionValue) :
    Except String Renderer :=
  if action.length < 5 then
    .error "Flood fill action requires at least 5 parameters"
  else
    match action.getD 1 (.str "") with
    | .num n =>
      let d : ActionValue := .str ""
      do
        let x ← getNumber (action.getD 2 d)
        let y ← getNumber (action.getD 3 d)
        let fc ← getNumber (action.getD 4 d)
        let c1 := doFloodFill r.canvas (qToNat n) (qToI32 x) (qToI32 y)
          (qToU32 fc)
        .ok { r with canvas := c1.1 }
    | _ => .ok r

/-- `draw_text` (`src/renderer.rs:509-544`): fewer than 9 slots, a
non-`Number` or out-of-range layer, or a non-`String` text slot skip;
slots 2-5 are required numbers; the font size (slot 7) parses `Number` and
`Integer` directly and strings through the abstract CSS-suffix parser
`parseFontSizeStr` (`parse_font_size` never fails on strings — it falls
back to 12).  The glyph rasterisation itself is the abstract parameter
`textRender`. -/
def textAct
    (textRender : Canvas → Fin 2 → ℕ → ℕ → ℕ → ℚ → String → ℕ → Canvas)
    (parseFontSizeStr : String → ℚ) (r : Renderer)
    (action : List ActionValue) : Except String Renderer :=
  if action.length < 9 then .ok r
  else
    match action.getD 1 (.str "") with
    | .num n =>
      if hl : 2 ≤ qToNat n then .ok r
      else
        let d : ActionValue := .str ""
        do
          let x ← getNumber (action.getD 2 d)
          let y ← getNumber (action.getD 3 d)
          let color ← getNumber (action.getD 4 d)
          let alpha ← getNumber (action.getD 5 d)
          match action.getD 6 d with
          | .str s =>
            let size := match action.getD 7 d with
              | .num m => m
              | .int m => (m : ℚ)
              | .str ss => parseFontSizeStr ss
            let c1 := textRender r.canvas ⟨qToNat n, by omega⟩ (qToU32 x)
              (qToU32 y) (qToU32 color) alpha s (qToU32 size)
            .ok { r with canvas := c1 }
          | _ => .ok r
    | _ => .ok r

/-- `copy` (`src/renderer.rs:546-562`): fewer than 6 slots or a
non-`Number` layer skip; slots 2-5 are required numbers feeding `do_copy`
(which touches only the clipboard). -/
def copyAct (r : Renderer) (action : List ActionValue) :
    Except String Renderer :=
  if action.length < 6 then .ok r
  else
    match action.getD 1 (.str "") with
    | .num n =>
      let d : ActionValue := .str ""
      do
        let x ← getNumber (action.getD 2 d)
        let y ← getNumber (action.getD 3 d)
        let w ← getNumber (action.getD 4 d)
        let h ← getNumber (action.getD 5 d)
        let clip1 := doCopy r.canvas r.clipboard (qToNat n) (qToU32 x)
          (qToU32 y) (qToU32 w) (qToU32 h)
        .ok { r with clipboard := clip1 }
    | _ => .ok r

/-- `paste` (`src/renderer.rs:564-582`): fewer than 8 slots or a
non-`Number` layer skip; slots 2-7 are required numbers feeding
`do_paste`. -/
def pasteAct (r : Renderer) (action : List ActionValue) :
    Except String Renderer :=
  if action.length < 8 then .ok r
  else
    match action.getD 1 (.str "") with
    | .num n =>
      let d : ActionValue := .str ""
      do
        let x ← getNumber (action.getD 2 d)
        let y ← getNumber (action.getD 3 d)
        let w ← getNumber (action.getD 4 d)
        let h ← getNumber (action.getD 5 d)
        let dx ← getNumber (action.getD 6 d)
        let dy ← getNumber (action.getD 7 d)
        let res := doPaste r.canvas r.clipboard (qToNat n) (qToU32 x)
          (qToU32 y) (qToU32 w) (qToU32 h) (qToI32 dx) (qToI32 dy)
        .ok { r with canvas := res.1, clipboard := res.2 }
    | _ => .ok r

/-- `merge` (`src/renderer.rs:584-600`): fewer than 6 slots or a
non-`Number` layer skip; slots 2-5 are required numbers feeding
`do_merge`. -/
def mergeAct (r : Renderer) (action : List ActionValue) :
    Except String Renderer :=
  if action.length < 6 then .ok r
  else
    match action.getD 1 (.str "") with
    | .num n =>
      let d : ActionValue := .str ""
      do
        let x ← getNumber (action.getD 2 d)
        let y ← getNumber (action.getD 3 d)
        let w ← getNumber (action.getD 4 d)
        let h ← getNumber (action.getD 5 d)
        let c1 := doMerge r.canvas (qToNat n) (qToU32 x) (qToU32 y)
          (qToU32 w) (qToU32 h)
        .ok { r with canvas := c1 }
    | _ => .ok r

/-- `execute_action` (`src/renderer.rs:316-346`): empty actions and
non-string commands are skipped; `bezier`, `restore` and unknown commands
are no-ops.  The abstract parameters stand for the pen curve's `f64`
square root, the glyph rasterisation, and the font-size string parser. -/
def executeAction (sqrtQ : ℚ → ℚ)
    (textRender : Canvas → Fin 2 → ℕ → ℕ → ℕ → ℚ → String → ℕ → Canvas)
    (parseFontSizeStr : String → ℚ) (r : Renderer)
    (action : List ActionValue) : Except String Renderer :=
  match action.head? with
  | none => .ok r
  | some (.num _) => .ok r
  | some (.int _) => .ok r
  | some (.str cmd) =>
    if cmd = "clearCanvas" then .ok (clearCanvasAct r)
    else if cmd = "eraseAll" then .ok (eraseAllAct r action)
    else if cmd = "freeHand" then freeHandAct sqrtQ r action
    else if cmd = "line" then lineAct sqrtQ r action
    else if cmd = "bezier" then .ok r
    else if cmd = "fill" then fillAct r action
    else if cmd = "floodFill" then floodFillAct r action
    else if cmd = "text" then textAct textRender parseFontSizeStr r action
    else if cmd = "copy" then copyAct r action
    else if cmd = "paste" then pasteAct r action
    else if cmd = "merge" then mergeAct r action
    else if cmd = "restore" then .ok r
    else .ok r

/-- The action loop of `render_frame_by_frame` (`src/renderer.rs:304-311`):
execute each action in turn, recording the canvas after each one; the first
action error aborts the whole replay with that error. -/
def replayActions (sqrtQ : ℚ → ℚ)
    (textRender : Canvas → Fin 2 → ℕ → ℕ → ℕ → ℚ → String → ℕ → Canvas)
    (parseFontSizeStr : String → ℚ) :
    Renderer → List (List ActionValue) →
      Except String (Renderer × List Canvas)
  | r, [] => .ok (r, [])
  | r, a :: rest => do
    let r1 ← executeAction sqrtQ textRender parseFontSizeStr r a
    let res ← replayActions sqrtQ textRender parseFontSizeStr r1 rest
    .ok (res.1, r1.canvas :: res.2)

/-- `render_frame_by_frame` (`src/renderer.rs:293-314`): clear the canvas,
snapshot it, then replay the action list. -/
def renderFrameByFrame (sqrtQ : ℚ → ℚ)
    (textRender : Canvas → Fin 2 → ℕ → ℕ → ℕ → ℚ → String → ℕ → Canvas)
    (parseFontSizeStr : String → ℚ) (r : Renderer)
    (actions : List (List ActionValue)) :
    Except String (Renderer × List Canvas) :=
  let r0 := clearCanvasAct r
  do
    let res ← replayActions sqrtQ textRender parseFontSizeStr r0 actions
    .ok (res.1, r0.canvas :: res.2)

theorem exceptBind_ok {ε α β : Type} (a : α) (f : α → Except ε β) :
    (Except.ok (ε := ε) a >>= f) = f a := rfl

theorem exceptBind_error {ε α β : Type} (e : ε) (f : α → Except ε β) :
    (Except.error (α := α) e >>= f) = Except.error e := rfl

/-- The minimum slot count of each length-guarded opcode handler
(`free_hand`, `draw_line`, `draw_text`, `copy`, `paste`, `merge` return
`Ok` early below it; `erase_all` requires two slots). -/
def opcodeMinLen (s : String) : ℕ :=
  if s = "eraseAll" then 2
  else if s = "freeHand" then 12
  else if s = "line" then 16
  else if s = "text" then 9
  else if s = "copy" then 6
  else if s = "paste" then 8
  else if s = "merge" then 6
  else 0

/-- C4 — corrected.  Too-short actions are silently skipped (the renderer is
returned unchanged, the replay continues and snapshots the unchanged
canvas) for the length-guarded opcodes `eraseAll`, `freeHand`, `line`,
`text`, `copy`, `paste` and `merge` — but NOT for all recognised opcodes:
a `fill` with fewer than 16 slots and a `floodFill` with fewer than 5 are
hard errors that abort the whole replay. -/
theorem claim_C4_short_action_handling (sqrtQ : ℚ → ℚ)
    (textRender : Canvas → Fin 2 → ℕ → ℕ → ℕ → ℚ → String → ℕ → Canvas)
    (parseFontSizeStr : String → ℚ) (r : Renderer)
    (action : List ActionValue) (s : String)
    (hhead : action.head? = some (.str s)) :
    (s ∈ (["eraseAll", "freeHand", "line", "text", "copy", "paste",
        "merge"] : List String) →
      action.length < opcodeMinLen s →
      executeAction sqrtQ textRender parseFontSizeStr r action = .ok r ∧
      ∀ rest, replayActions sqrtQ textRender parseFontSizeStr r
          (action :: rest) =
        (replayActions sqrtQ textRender parseFontSizeStr r rest).map
          (fun p => (p.1, r.canvas :: p.2))) ∧
    (s = "fill" → action.length < 16 →
      ∀ rest, replayActions sqrtQ textRender parseFontSizeStr r
          (action :: rest) =
        .error "Fill action requires at least 16 parameters") ∧
    (s = "floodFill" → action.length < 5 →
      ∀ rest, replayActions sqrtQ textRender parseFontSizeStr r
          (action :: rest) =
        .error "Flood fill action requires at least 5 parameters") := by
  obtain ⟨a, t, rfl⟩ : ∃ a t, action = a :: t := by
    cases action with
    | nil => simp at hhead
    | cons a t => exact ⟨a, t, rfl⟩
  rw [List.head?_cons, Option.some_inj] at hhead
  subst hhead
  refine ⟨?_, ?_, ?_⟩
  · intro hmem hlen
    simp only [List.mem_cons, List.not_mem_nil, or_false] at hmem
    have hok : executeAction sqrtQ textRender parseFontSizeStr r
        (ActionValue.str s :: t) = .ok r := by
      rcases hmem with rfl | rfl | rfl | rfl | rfl | rfl | rfl
      · show Except.ok (eraseAllAct r (ActionValue.str "eraseAll" :: t)) = _
        have h2 : ¬ 2 ≤ (ActionValue.str "eraseAll" :: t).length := by
          have h := hlen
          rw [show opcodeMinLen "eraseAll" = 2 from rfl] at h
          omega
        unfold eraseAllAct
        rw [if_neg h2]
      · show freeHandAct sqrtQ r (ActionValue.str "freeHand" :: t) = _
        unfold freeHandAct
        rw [if_pos (show (ActionValue.str "freeHand" :: t).length < 12
          from hlen)]
      · show lineAct sqrtQ r (ActionValue.str "line" :: t) = _
        unfold lineAct
        rw [if_pos (show (ActionValue.str "line" :: t).length < 16
          from hlen)]
      · show textAct textRender parseFontSizeStr r
          (ActionValue.str "text" :: t) = _
        unfold textAct
        rw [if_pos (show (ActionValue.str "text" :: t).length < 9
          from hlen)]
      · show copyAct r (ActionValue.str "copy" :: t) = _
        unfold copyAct
        rw [if_pos (show (ActionValue.str "copy" :: t).length < 6
          from hlen)]
      · show pasteAct r (ActionValue.str "paste" :: t) = _
        unfold pasteAct
        rw [if_pos (show (ActionValue.str "paste" :: t).length < 8
          from hlen)]
      · show mergeAct r (ActionValue.str "merge" :: t) = _
        unfold mergeAct
        rw [if_pos (show (ActionValue.str "merge" :: t).length < 6
          from hlen)]
    refine ⟨hok, fun rest => ?_⟩
    cases hres : replayActions sqrtQ textRender parseFontSizeStr r rest with
    | error e => simp [replayActions, hok, hres, Except.map, exceptBind_ok, exceptBind_error]
    | ok p => simp [replayActions, hok, hres, Except.map, exceptBind_ok]
  · intro hs hlen rest
    subst hs
    have herr : executeAction sqrtQ textRender parseFontSizeStr r
        (ActionValue.str "fill" :: t) =
        .error "Fill action requires at least 16 parameters" := by
      show fillAct r (ActionValue.str "fill" :: t) = _
      unfold fillAct
      rw [if_pos (show (ActionValue.str "fill" :: t).length < 16 from hlen)]
    simp [replayActions, herr, exceptBind_error]
  · intro hs hlen rest
    subst hs
    have herr : executeAction sqrtQ textRender parseFontSizeStr r
        (ActionValue.str "floodFill" :: t) =
        .error "Flood fill action requires at least 5 parameters" := by
      show floodFillAct r (ActionValue.str "floodFill" :: t) = _
      unfold floodFillAct
      rw [if_pos (show (ActionValue.str "floodFill" :: t).length < 5
        from hlen)]
    simp [replayActions, herr, exceptBind_error]

/-- The abstract pen-curve square root, instantiated arbitrarily for
concrete evaluations. -/
def demoSqrt : ℚ → ℚ := fun q => q

/-- An inert glyph rasteriser for concrete evaluations. -/
def demoTextRender : Canvas → Fin 2 → ℕ → ℕ → ℕ → ℚ → String → ℕ →
    Canvas := fun c _ _ _ _ _ _ _ => c

/-- A constant font-size string parser for concrete evaluations. -/
def demoFontSize : String → ℚ := fun _ => 12

/-- A 2×2 blank renderer. -/
def demoRenderer : Renderer :=
  ⟨⟨fun _ _ _ => Pixel.zero, 2, 2, 0, fun _ => true⟩, defaultDrawingState,
    none⟩

theorem claim_C4_short_action_handling_witness :
    executeAction demoSqrt demoTextRender demoFontSize demoRenderer
        [ActionValue.str "copy"] = .ok demoRenderer ∧
    replayActions demoSqrt demoTextRender demoFontSize demoRenderer
        [[ActionValue.str "fill"]] =
      .error "Fill action requires at least 16 parameters" :=
  ⟨((claim_C4_short_action_handling demoSqrt demoTextRender demoFontSize
      demoRenderer [ActionValue.str "copy"] "copy" rfl).1
      (by simp) (by rw [show opcodeMinLen "copy" = 6 from rfl]; simp)).1,
    (claim_C4_short_action_handling demoSqrt demoTextRender demoFontSize
      demoRenderer [ActionValue.str "fill"] "fill" rfl).2.1 rfl
      (by simp) []⟩

/-- C4 counterexample: a replay containing a single too-short `fill` action
aborts with an error instead of skipping it — no snapshot list is produced
— refuting "the replay as a whole never aborts because of a too-short
action". -/
theorem claim_C4_counterexample :
    renderFrameByFrame demoSqrt demoTextRender demoFontSize demoRenderer
        [[ActionValue.str "fill"]] =
      .error "Fill action requires at least 16 parameters" := by
  rfl

/-! ### Flood-fill correctness: 4-connectivity -/

/-- 4-adjacency of grid cells. -/
def adjCell (a b : ℕ × ℕ) : Prop :=
  (a.1 = b.1 ∧ (a.2 + 1 = b.2 ∨ b.2 + 1 = a.2)) ∨
  (a.2 = b.2 ∧ (a.1 + 1 = b.1 ∨ b.1 + 1 = a.1))

/-- An in-bounds cell whose pixel packs to `base`. -/
def baseCell (W H base : ℕ) (L : Layer) (c : ℕ × ℕ) : Prop :=
  c.1 < W ∧ c.2 < H ∧ packPixel (L c.1 c.2) = base

/-- One step between adjacent base cells. -/
def baseStep (W H base : ℕ) (L : Layer) (u v : ℕ × ℕ) : Prop :=
  baseCell W H base L u ∧ baseCell W H base L v ∧ adjCell u v

/-- `c` is reachable from `a` by a 4-connected path of base cells (the
claim's notion of the seed's component when `L` is the pre-fill layer). -/
def connectedTo (W H base : ℕ) (L : Layer) (a c : ℕ × ℕ) : Prop :=
  Relation.ReflTransGen (baseStep W H base L) a c

theorem adjCell_symm {a b : ℕ × ℕ} (h : adjCell a b) : adjCell b a := by
  unfold adjCell at h ⊢
  tauto

theorem baseStep_symm (W H base : ℕ) (L : Layer) :
    Symmetric (baseStep W H base L) := by
  intro u v h
  exact ⟨h.2.1, h.1, adjCell_symm h.2.2⟩

theorem connectedTo_symm {W H base : ℕ} {L : Layer} {a c : ℕ × ℕ}
    (h : connectedTo W H base L a c) : connectedTo W H base L c a :=
  Relation.ReflTransGen.symmetric (baseStep_symm W H base L) h

theorem connectedTo_head_base {W H base : ℕ} {L : Layer} {a c : ℕ × ℕ}
    (h : connectedTo W H base L a c) (hc : baseCell W H base L c) :
    baseCell W H base L a := by
  induction h using Relation.ReflTransGen.head_induction_on with
  | refl => exact hc
  | head hstep _ _ => exact hstep.1

/-- Cells of one horizontal run of base cells are mutually connected
(rightward version). -/
theorem connectedTo_run_right (W H base : ℕ) (L : Layer) (py a : ℕ) :
    ∀ k, (∀ t, a ≤ t → t ≤ a + k → baseCell W H base L (t, py)) →
      connectedTo W H base L (a, py) (a + k, py) := by
  intro k
  induction k with
  | zero => intro _; exact Relation.ReflTransGen.refl
  | succ m ih =>
    intro hb
    refine Relation.ReflTransGen.tail
      (ih (fun t ht1 ht2 => hb t ht1 (by omega))) ?_
    refine ⟨hb (a + m) (by omega) (by omega), hb (a + m + 1) (by omega)
      (by omega), ?_⟩
    right
    exact ⟨rfl, Or.inl rfl⟩

/-- Cells of one horizontal run of base cells are mutually connected. -/
theorem connectedTo_run (W H base : ℕ) (L : Layer) (py a b : ℕ)
    (hab : a ≤ b) (hb : ∀ t, a ≤ t → t ≤ b → baseCell W H base L (t, py)) :
    connectedTo W H base L (a, py) (b, py) := by
  obtain ⟨k, rfl⟩ : ∃ k, b = a + k := ⟨b - a, by omega⟩
  exact connectedTo_run_right W H base L py a k
    (fun t ht1 ht2 => hb t ht1 ht2)

/-! ### Flood-fill correctness: run extension -/

theorem extendLeft_base (base : ℕ) (L : Layer) (py : ℕ) :
    ∀ px, packPixel (L px py) = base →
      ∀ t, extendLeft base L py px ≤ t → t ≤ px →
        packPixel (L t py) = base := by
  intro px
  induction px with
  | zero =>
    intro hb t h1 h2
    have : t = 0 := by omega
    subst this
    exact hb
  | succ m ih =>
    intro hb t h1 h2
    unfold extendLeft at h1
    by_cases hm : packPixel (L m py) = base
    · rw [if_pos hm] at h1
      rcases Nat.lt_or_ge t (m + 1) with hlt | hge
      · exact ih hm t h1 (by omega)
      · have : t = m + 1 := by omega
        subst this
        exact hb
    · rw [if_neg hm] at h1
      have : t = m + 1 := by omega
      subst this
      exact hb

theorem extendLeft_max (base : ℕ) (L : Layer) (py : ℕ) :
    ∀ px, 0 < extendLeft base L py px →
      packPixel (L (extendLeft base L py px - 1) py) ≠ base := by
  intro px
  induction px with
  | zero =>
    intro h
    unfold extendLeft at h
    omega
  | succ m ih =>
    intro h
    unfold extendLeft at h ⊢
    by_cases hm : packPixel (L m py) = base
    · rw [if_pos hm] at h ⊢
      exact ih h
    · rw [if_neg hm] at h ⊢
      simpa using hm

theorem extendRight_base (W base : ℕ) (L : Layer) (py : ℕ) :
    ∀ px, packPixel (L px py) = base →
      ∀ t, px ≤ t → t ≤ extendRight W base L py px →
        packPixel (L t py) = base := by
  intro px
  induction px using extendRight.induct W base L py with
  | case1 x1 hc ih =>
    intro hb t h1 h2
    rw [extendRight, if_pos hc] at h2
    rcases Nat.lt_or_ge x1 t with hlt | hge
    · exact ih hc.2 t (by omega) h2
    · have : t = x1 := by omega
      subst this
      exact hb
  | case2 x1 hc =>
    intro hb t h1 h2
    rw [extendRight, if_neg hc] at h2
    have : t = x1 := by omega
    subst this
    exact hb

theorem extendRight_max (W base : ℕ) (L : Layer) (py : ℕ) :
    ∀ px, extendRight W base L py px < W - 1 →
      packPixel (L (extendRight W base L py px + 1) py) ≠ base := by
  intro px
  induction px using extendRight.induct W base L py with
  | case1 x1 hc ih =>
    rw [extendRight, if_pos hc]
    exact ih
  | case2 x1 hc =>
    rw [extendRight, if_neg hc]
    intro hlt hb
    exact hc ⟨hlt, hb⟩

theorem extendRight_lt (W base : ℕ) (L : Layer) (py : ℕ) :
    ∀ px, px < W → extendRight W base L py px < W := by
  intro px
  induction px using extendRight.induct W base L py with
  | case1 x1 hc ih =>
    intro _
    rw [extendRight, if_pos hc]
    exact ih (by omega)
  | case2 x1 hc =>
    intro h
    rw [extendRight, if_neg hc]
    exact h

/-- Membership in the worklist pushes of a painted run. -/
theorem floodPushes_mem {H py x0 x1 : ℕ} {u : ℕ × ℕ} :
    u ∈ floodPushes H py x0 x1 ↔
      (x0 ≤ u.1 ∧ u.1 ≤ x1 ∧
        ((u.2 = py + 1 ∧ py + 1 < H) ∨ (py = u.2 + 1 ∧ 0 < py))) := by
  unfold floodPushes
  rcases u with ⟨a, b⟩
  dsimp only
  rw [List.mem_reverse, List.mem_append]
  constructor
  · rintro (h | h)
    · have hH : py + 1 < H := by
        by_contra hc
        rw [if_neg hc] at h
        exact absurd h (List.not_mem_nil _)
      rw [if_pos hH, List.mem_map] at h
      obtain ⟨t, ht, heq⟩ := h
      rw [List.mem_range'_1] at ht
      injection heq with h1 h2
      refine ⟨by omega, by omega, Or.inl ⟨by omega, hH⟩⟩
    · have hpos : 0 < py := by
        by_contra hc
        rw [if_neg hc] at h
        exact absurd h (List.not_mem_nil _)
      rw [if_pos hpos, List.mem_map] at h
      obtain ⟨t, ht, heq⟩ := h
      rw [List.mem_range'_1] at ht
      injection heq with h1 h2
      refine ⟨by omega, by omega, Or.inr ⟨by omega, hpos⟩⟩
  · rintro ⟨h1, h2, (⟨hb, hH⟩ | ⟨hb, hpos⟩)⟩
    · left
      rw [if_pos hH, List.mem_map]
      refine ⟨a, by rw [List.mem_range'_1]; omega, by rw [hb]⟩
    · right
      rw [if_pos hpos, List.mem_map]
      refine ⟨a, by rw [List.mem_range'_1]; omega, ?_⟩
      have hb2 : py - 1 = b := by omega
      rw [hb2]

theorem paintRun_not_mem (fillPx : Pixel) (L : Layer) (py x0 x1 i j : ℕ)
    (hc : ¬(x0 ≤ i ∧ i ≤ x1 ∧ j = py)) :
    paintRun fillPx L py x0 x1 i j = L i j := by
  unfold paintRun
  rw [if_neg hc]

theorem paintRun_mem (fillPx : Pixel) (L : Layer) (py x0 x1 i j : ℕ)
    (hc : x0 ≤ i ∧ i ≤ x1 ∧ j = py) :
    paintRun fillPx L py x0 x1 i j = fillPx := by
  unfold paintRun
  rw [if_pos hc]

theorem baseStep_paint {W H base : ℕ} {fillPx : Pixel} {L : Layer}
    {py x0 x1 : ℕ} {b c : ℕ × ℕ}
    (hb : ¬(x0 ≤ b.1 ∧ b.1 ≤ x1 ∧ b.2 = py))
    (hc : ¬(x0 ≤ c.1 ∧ c.1 ≤ x1 ∧ c.2 = py))
    (h : baseStep W H base L b c) :
    baseStep W H base (paintRun fillPx L py x0 x1) b c := by
  obtain ⟨⟨hb1, hb2, hb3⟩, ⟨hc1, hc2, hc3⟩, hadj⟩ := h
  refine ⟨⟨hb1, hb2, ?_⟩, ⟨hc1, hc2, ?_⟩, hadj⟩
  · rw [paintRun_not_mem fillPx L py x0 x1 b.1 b.2 hb]
    exact hb3
  · rw [paintRun_not_mem fillPx L py x0 x1 c.1 c.2 hc]
    exact hc3

/-- Path repair: a base-cell path that ends outside the painted run either
avoids the run entirely (and survives painting), or can be restarted from a
cell pushed onto the worklist. -/
theorem floodPath_repair {W H base : ℕ} {fillPx : Pixel} {L : Layer}
    {py x0 x1 : ℕ}
    (hx0max : 0 < x0 → packPixel (L (x0 - 1) py) ≠ base)
    (hx1max : x1 < W - 1 → packPixel (L (x1 + 1) py) ≠ base)
    {s c : ℕ × ℕ} (hpath : connectedTo W H base L s c)
    (hc : ¬(x0 ≤ c.1 ∧ c.1 ≤ x1 ∧ c.2 = py)) :
    (connectedTo W H base (paintRun fillPx L py x0 x1) s c ∧
      ¬(x0 ≤ s.1 ∧ s.1 ≤ x1 ∧ s.2 = py)) ∨
    (∃ u ∈ floodPushes H py x0 x1,
      connectedTo W H base (paintRun fillPx L py x0 x1) u c) := by
  induction hpath with
  | refl => exact Or.inl ⟨Relation.ReflTransGen.refl, hc⟩
  | tail hsb hstep ih =>
    rename_i b c2
    by_cases hbR : x0 ≤ b.1 ∧ b.1 ≤ x1 ∧ b.2 = py
    · right
      refine ⟨c2, ?_, Relation.ReflTransGen.refl⟩
      rw [floodPushes_mem]
      obtain ⟨-, ⟨hc1, hc2w, hc3⟩, hadj⟩ := hstep
      rcases hadj with ⟨heq, hv⟩ | ⟨heq, hh⟩
      · -- vertical neighbour of a run cell: pushed
        rcases hv with h1 | h1
        · exact ⟨by omega, by omega, Or.inl ⟨by omega, by omega⟩⟩
        · exact ⟨by omega, by omega, Or.inr ⟨by omega, by omega⟩⟩
      · -- horizontal neighbour: contradicts run maximality
        exfalso
        rcases hh with h1 | h1
        · -- c2 is right of b, so c2.1 = x1 + 1
          have hcx : c2.1 = x1 + 1 := by omega
          have hlt : x1 < W - 1 := by omega
          apply hx1max hlt
          have : (x1 + 1, py) = c2 := by
            rcases c2 with ⟨u, v⟩
            simp only [Prod.mk.injEq]
            omega
          rw [show x1 + 1 = c2.1 by omega, show py = c2.2 by omega]
          exact hc3
        · -- c2 is left of b, so c2.1 = x0 - 1 with x0 > 0
          have hpos : 0 < x0 := by omega
          apply hx0max hpos
          rw [show x0 - 1 = c2.1 by omega, show py = c2.2 by omega]
          exact hc3
    · rcases ih hbR with ⟨hp, hsR⟩ | ⟨u, hu, hp⟩
      · exact Or.inl ⟨Relation.ReflTransGen.tail hp
          (baseStep_paint hbR hc hstep), hsR⟩
      · exact Or.inr ⟨u, hu, Relation.ReflTransGen.tail hp
          (baseStep_paint hbR hc hstep)⟩

theorem connectedTo_tail_base {W H base : ℕ} {L : Layer} {a c : ℕ × ℕ}
    (h : connectedTo W H base L a c) (ha : baseCell W H base L a) :
    baseCell W H base L c := by
  induction h with
  | refl => exact ha
  | tail _ hstep _ => exact hstep.2.1

/-- The worklist-loop invariant argument for `floodLoop`: if every cell is
either untouched or a painted component cell, every currently-base stack
entry lies in the seed's component, and every still-base component cell is
reachable from some stack entry through currently-base cells, then a run of
the loop that does not hit the cap ends with every cell untouched or
painted with the fill pixel, and with no component cell still
base-coloured. -/
theorem floodLoop_spec (W H base : ℕ) (fillPx : Pixel)
    (hbf : packPixel fillPx ≠ base) (L0 : Layer) (seed : ℕ × ℕ) :
    ∀ (L : Layer) (stack : List (ℕ × ℕ)),
    (∀ i j, L i j = L0 i j ∨
      (i < W ∧ j < H ∧ connectedTo W H base L0 seed (i, j) ∧
        L i j = fillPx)) →
    (∀ s ∈ stack, s.1 < W → s.2 < H → packPixel (L s.1 s.2) = base →
      connectedTo W H base L0 seed s) →
    (∀ c : ℕ × ℕ, c.1 < W → c.2 < H →
      connectedTo W H base L0 seed c → packPixel (L c.1 c.2) = base →
      ∃ s ∈ stack, connectedTo W H base L s c) →
    ∀ Lf, floodLoop W H base fillPx L stack = (Lf, false) →
    ((∀ i j, Lf i j = L0 i j ∨
        (i < W ∧ j < H ∧ connectedTo W H base L0 seed (i, j) ∧
          Lf i j = fillPx)) ∧
      (∀ c : ℕ × ℕ, c.1 < W → c.2 < H →
        connectedTo W H base L0 seed c →
        packPixel (Lf c.1 c.2) ≠ base)) := by
  intro L stack
  induction L, stack using floodLoop.induct W H base fillPx with
  | case1 L =>
    intro hII hIII hI Lf hrun
    rw [floodLoop] at hrun
    rw [Prod.ext_iff] at hrun
    obtain ⟨hL, -⟩ := hrun
    dsimp only at hL
    subst hL
    refine ⟨hII, ?_⟩
    intro c hc1 hc2 hconn hbase
    obtain ⟨s, hs, -⟩ := hI c hc1 hc2 hconn hbase
    exact absurd hs (List.not_mem_nil s)
  | case2 L px py rest hcap =>
    intro hII hIII hI Lf hrun
    rw [floodLoop] at hrun
    simp only [if_pos hcap, Prod.ext_iff] at hrun
    exact absurd hrun.2 (by simp)
  | case3 L px py rest hcap hoob ih =>
    intro hII hIII hI Lf hrun
    rw [floodLoop] at hrun
    simp only [if_neg hcap, if_pos hoob] at hrun
    refine ih hII (fun s hs => hIII s (List.mem_cons_of_mem _ hs)) ?_ Lf hrun
    intro c hc1 hc2 hconn hbase
    obtain ⟨s, hs, hpath⟩ := hI c hc1 hc2 hconn hbase
    rcases List.mem_cons.mp hs with rfl | hsr
    · have hsb : baseCell W H base L (px, py) :=
        connectedTo_head_base hpath ⟨hc1, hc2, hbase⟩
      obtain ⟨h1, h2, -⟩ := hsb
      dsimp only at h1 h2
      rcases hoob with h | h <;> omega
    · exact ⟨s, hsr, hpath⟩
  | case4 L px py rest hcap hoob hskip ih =>
    intro hII hIII hI Lf hrun
    rw [floodLoop] at hrun
    simp only [if_neg hcap, if_neg hoob, if_pos hskip] at hrun
    refine ih hII (fun s hs => hIII s (List.mem_cons_of_mem _ hs)) ?_ Lf hrun
    intro c hc1 hc2 hconn hbase
    obtain ⟨s, hs, hpath⟩ := hI c hc1 hc2 hconn hbase
    rcases List.mem_cons.mp hs with rfl | hsr
    · have hsb : baseCell W H base L (px, py) :=
        connectedTo_head_base hpath ⟨hc1, hc2, hbase⟩
      obtain ⟨-, -, h3⟩ := hsb
      dsimp only at h3
      rcases hskip with h | h
      · exact absurd (h3.symm.trans h) (Ne.symm hbf)
      · exact absurd h3 h
    · exact ⟨s, hsr, hpath⟩
  | case5 L px py rest hcap hoob hskip x0 x1 ih =>
    intro hII hIII hI Lf hrun
    rw [floodLoop] at hrun
    simp only [if_neg hcap, if_neg hoob, if_neg hskip] at hrun
    push_neg at hoob hskip
    obtain ⟨hpxW, hpyH⟩ := hoob
    obtain ⟨-, hpx_base⟩ := hskip
    have hx0def : x0 = extendLeft base L py px := rfl
    have hx1def : x1 = extendRight W base L py px := rfl
    rw [← hx0def, ← hx1def] at hrun
    have hx0le : x0 ≤ px := hx0def ▸ extendLeft_le base L py px
    have hpx_le : px ≤ x1 := hx1def ▸ extendRight_ge W base L py px
    have hx1W : x1 < W := hx1def ▸ extendRight_lt W base L py px hpxW
    have hrb : ∀ t, x0 ≤ t → t ≤ x1 → packPixel (L t py) = base := by
      intro t h1 h2
      rw [hx0def] at h1
      rw [hx1def] at h2
      rcases Nat.le_total t px with h | h
      · exact extendLeft_base base L py px hpx_base t h1 h
      · exact extendRight_base W base L py px hpx_base t h h2
    have hx0max : 0 < x0 → packPixel (L (x0 - 1) py) ≠ base := by
      rw [hx0def]
      exact extendLeft_max base L py px
    have hx1max : x1 < W - 1 → packPixel (L (x1 + 1) py) ≠ base := by
      rw [hx1def]
      exact extendRight_max W base L py px
    have hcur_orig : ∀ i j, packPixel (L i j) = base → L i j = L0 i j := by
      intro i j hb
      rcases hII i j with h | ⟨-, -, -, h⟩
      · exact h
      · rw [h] at hb
        exact absurd hb hbf
    have hcomp_run : ∀ t, x0 ≤ t → t ≤ x1 →
        connectedTo W H base L0 seed (t, py) := by
      intro t h1 h2
      have hpx_comp : connectedTo W H base L0 seed (px, py) :=
        hIII (px, py) (List.mem_cons_self _ _) hpxW hpyH hpx_base
      have hbase0 : ∀ u, x0 ≤ u → u ≤ x1 →
          baseCell W H base L0 (u, py) := by
        intro u hu1 hu2
        have hcb := hrb u hu1 hu2
        refine ⟨by omega, hpyH, ?_⟩
        dsimp only
        rw [← hcur_orig u py hcb]
        exact hcb
      rcases Nat.le_total t px with h | h
      · refine hpx_comp.trans (connectedTo_symm ?_)
        exact connectedTo_run W H base L0 py t px h
          (fun u hu1 hu2 => hbase0 u (by omega) (by omega))
      · refine hpx_comp.trans ?_
        exact connectedTo_run W H base L0 py px t h
          (fun u hu1 hu2 => hbase0 u (by omega) (by omega))
    have hII2 : ∀ i j, paintRun fillPx L py x0 x1 i j = L0 i j ∨
        (i < W ∧ j < H ∧ connectedTo W H base L0 seed (i, j) ∧
          paintRun fillPx L py x0 x1 i j = fillPx) := by
      intro i j
      by_cases hc : x0 ≤ i ∧ i ≤ x1 ∧ j = py
      · right
        obtain ⟨h1, h2, h3⟩ := hc
        refine ⟨by omega, ?_, ?_,
          paintRun_mem fillPx L py x0 x1 i j ⟨h1, h2, h3⟩⟩
        · rw [h3]
          exact hpyH
        · rw [h3]
          exact hcomp_run i h1 h2
      · have heq := paintRun_not_mem fillPx L py x0 x1 i j hc
        rcases hII i j with h | ⟨h1, h2, h3, h4⟩
        · left
          rw [heq, h]
        · right
          exact ⟨h1, h2, h3, heq.trans h4⟩
    have hIII2 : ∀ s ∈ floodPushes H py x0 x1 ++ rest,
        s.1 < W → s.2 < H →
        packPixel (paintRun fillPx L py x0 x1 s.1 s.2) = base →
        connectedTo W H base L0 seed s := by
      intro s hs hs1 hs2 hsb
      have hsnotR : ¬(x0 ≤ s.1 ∧ s.1 ≤ x1 ∧ s.2 = py) := by
        intro hR
        rw [paintRun_mem fillPx L py x0 x1 s.1 s.2 hR] at hsb
        exact hbf hsb
      rw [paintRun_not_mem fillPx L py x0 x1 s.1 s.2 hsnotR] at hsb
      rcases List.mem_append.mp hs with hp | hr
      · rw [floodPushes_mem] at hp
        obtain ⟨h1, h2, hv⟩ := hp
        have hstep : baseStep W H base L0 (s.1, py) s := by
          refine ⟨?_, ?_, ?_⟩
          · refine ⟨by omega, hpyH, ?_⟩
            dsimp only
            have hcb := hrb s.1 h1 h2
            rw [← hcur_orig s.1 py hcb]
            exact hcb
          · refine ⟨hs1, hs2, ?_⟩
            rw [← hcur_orig s.1 s.2 hsb]
            exact hsb
          · exact Or.inl ⟨rfl, by omega⟩
        exact Relation.ReflTransGen.tail (hcomp_run s.1 h1 h2) hstep
      · exact hIII s (List.mem_cons_of_mem _ hr) hs1 hs2 hsb
    have hI2 : ∀ c : ℕ × ℕ, c.1 < W → c.2 < H →
        connectedTo W H base L0 seed c →
        packPixel (paintRun fillPx L py x0 x1 c.1 c.2) = base →
        ∃ s ∈ floodPushes H py x0 x1 ++ rest,
          connectedTo W H base (paintRun fillPx L py x0 x1) s c := by
      intro c hc1 hc2 hconn hcb
      have hcnotR : ¬(x0 ≤ c.1 ∧ c.1 ≤ x1 ∧ c.2 = py) := by
        intro hR
        rw [paintRun_mem fillPx L py x0 x1 c.1 c.2 hR] at hcb
        exact hbf hcb
      rw [paintRun_not_mem fillPx L py x0 x1 c.1 c.2 hcnotR] at hcb
      obtain ⟨s, hs, hpath⟩ := hI c hc1 hc2 hconn hcb
      rcases floodPath_repair hx0max hx1max hpath hcnotR with
        ⟨hp, hsR⟩ | ⟨u, hu, hp⟩
      · rcases List.mem_cons.mp hs with rfl | hsr
        · exact absurd ⟨hx0le, hpx_le, rfl⟩ hsR
        · exact ⟨s, List.mem_append_right _ hsr, hp⟩
      · exact ⟨u, List.mem_append_left _ hu, hp⟩
    exact ih hII2 hIII2 hI2 Lf hrun

/-- C6 — confirmed.  For a valid layer and an in-bounds seed: when the
seed's packed colour has a zero alpha byte or already equals the fill
colour, the flood fill changes nothing; otherwise, whenever the worklist
cap is not hit (the loop returns `false`), every pixel 4-connected to the
seed through base-packed pixels holds exactly the unpacked fill colour,
every other pixel of the layer — and the whole other layer and all canvas
metadata — is unchanged. -/
theorem claim_C6_flood_fill_component (c : Canvas) (layer : ℕ) (xi yi : ℤ)
    (fill : ℕ) (hl : layer < 2) (hfill : fill < 2 ^ 32)
    (hx : i32ToU32 xi < c.width) (hy : i32ToU32 yi < c.height) :
    (packPixel (c.layers ⟨layer, hl⟩ (i32ToU32 xi) (i32ToU32 yi)) / 2 ^ 24
          % 2 ^ 8 = 0 ∨
        packPixel (c.layers ⟨layer, hl⟩ (i32ToU32 xi) (i32ToU32 yi)) =
          fill →
      doFloodFill c layer xi yi fill = (c, false)) ∧
    (¬(packPixel (c.layers ⟨layer, hl⟩ (i32ToU32 xi) (i32ToU32 yi)) / 2 ^ 24
          % 2 ^ 8 = 0 ∨
        packPixel (c.layers ⟨layer, hl⟩ (i32ToU32 xi) (i32ToU32 yi)) =
          fill) →
      ∀ cf : Canvas, doFloodFill c layer xi yi fill = (cf, false) →
        cf.width = c.width ∧ cf.height = c.height ∧
        cf.currentLayer = c.currentLayer ∧ cf.visible = c.visible ∧
        (∀ k : Fin 2, k ≠ ⟨layer, hl⟩ → cf.layers k = c.layers k) ∧
        (∀ i j, connectedTo c.width c.height
            (packPixel (c.layers ⟨layer, hl⟩ (i32ToU32 xi) (i32ToU32 yi)))
            (c.layers ⟨layer, hl⟩) (i32ToU32 xi, i32ToU32 yi) (i, j) →
          cf.layers ⟨layer, hl⟩ i j = unpackPixel fill) ∧
        (∀ i j, ¬ connectedTo c.width c.height
            (packPixel (c.layers ⟨layer, hl⟩ (i32ToU32 xi) (i32ToU32 yi)))
            (c.layers ⟨layer, hl⟩) (i32ToU32 xi, i32ToU32 yi) (i, j) →
          cf.layers ⟨layer, hl⟩ i j = c.layers ⟨layer, hl⟩ i j)) := by
  have hl2 : ¬ 2 ≤ layer := by omega
  have hoob : ¬(c.width ≤ i32ToU32 xi ∨ c.height ≤ i32ToU32 yi) := by
    push_neg
    exact ⟨hx, hy⟩
  constructor
  · intro hb
    unfold doFloodFill
    rw [dif_neg hl2, if_neg hoob, if_pos hb]
  · intro hb cf hrun
    unfold doFloodFill at hrun
    rw [dif_neg hl2, if_neg hoob, if_neg hb] at hrun
    rw [Prod.ext_iff] at hrun
    obtain ⟨hcf, hflag⟩ := hrun
    dsimp only at hcf hflag
    set W := c.width
    set H := c.height
    set li : Fin 2 := (⟨layer, hl⟩ : Fin 2) with hli
    set L := c.layers li with hL
    set base := packPixel (L (i32ToU32 xi) (i32ToU32 yi)) with hbase
    set fillPx := unpackPixel fill with hfillPx
    set seed : ℕ × ℕ := (i32ToU32 xi, i32ToU32 yi) with hseed
    have hbf : packPixel fillPx ≠ base := by
      rw [hfillPx, packPixel_unpackPixel fill hfill]
      intro hh
      exact hb (Or.inr hh.symm)
    have hseedbase : baseCell W H base L seed := ⟨hx, hy, rfl⟩
    have hrunLoop : floodLoop W H base fillPx L [seed] =
        ((floodLoop W H base fillPx L [seed]).1, false) := by
      rw [Prod.ext_iff]
      exact ⟨rfl, hflag⟩
    have hspec := floodLoop_spec W H base fillPx hbf L seed L [seed]
      (fun i j => Or.inl rfl)
      (fun s hs hs1 hs2 hsb => by
        rcases List.mem_cons.mp hs with rfl | hnil
        · exact Relation.ReflTransGen.refl
        · exact absurd hnil (List.not_mem_nil s))
      (fun c2 hc1 hc2 hconn hcb =>
        ⟨seed, List.mem_cons_self _ _, hconn⟩)
      (floodLoop W H base fillPx L [seed]).1 hrunLoop
    obtain ⟨cII, cI⟩ := hspec
    have hlayers : cf.layers = fun k =>
        if k = li then (floodLoop W H base fillPx L [seed]).1
        else c.layers k := by
      rw [← hcf]
    have hwidth : cf.width = W := by rw [← hcf]
    have hheight : cf.height = H := by rw [← hcf]
    have hcl : cf.currentLayer = c.currentLayer := by rw [← hcf]
    have hvis : cf.visible = c.visible := by rw [← hcf]
    refine ⟨hwidth, hheight, hcl, hvis, ?_, ?_, ?_⟩
    · intro k hk
      rw [hlayers]
      exact if_neg hk
    · intro i j hconn
      have hcb : baseCell W H base L (i, j) :=
        connectedTo_tail_base hconn hseedbase
      obtain ⟨hi, hj, hpk⟩ := hcb
      dsimp only at hi hj hpk
      have hne := cI (i, j) hi hj hconn
      rcases cII i j with h | ⟨-, -, -, h⟩
      · exfalso
        apply hne
        dsimp only
        rw [h]
        exact hpk
      · rw [hlayers]
        dsimp only
        rw [if_pos rfl]
        exact h
    · intro i j hconn
      rw [hlayers]
      dsimp only
      rw [if_pos rfl]
      rcases cII i j with h | ⟨-, -, hc2, -⟩
      · exact h
      · exact absurd hc2 hconn

/-- A 1×1 canvas holding opaque red on both layers. -/
def demoFloodCanvas : Canvas :=
  ⟨fun _ _ _ => ⟨255, 0, 0, 255⟩, 1, 1, 0, fun _ => true⟩

theorem demoFlood_flag :
    (doFloodFill demoFloodCanvas 0 0 0 255).2 = false := by
  unfold doFloodFill
  rw [dif_neg (by omega : ¬ (2 : ℕ) ≤ 0)]
  rw [if_neg (by decide), if_neg (by decide)]
  dsimp only
  rw [show i32ToU32 0 = 0 from by decide]
  rw [floodLoop]
  rw [if_neg (by decide), if_neg (by decide), if_neg (by decide)]
  have hx1 : extendRight demoFloodCanvas.width
      (packPixel (demoFloodCanvas.layers ⟨0, by omega⟩ 0 0))
      (demoFloodCanvas.layers ⟨0, by omega⟩) 0 0 = 0 := by
    rw [extendRight]
    rw [if_neg (by decide)]
  dsimp only
  rw [hx1]
  rw [show extendLeft (packPixel (demoFloodCanvas.layers ⟨0, by omega⟩ 0 0))
      (demoFloodCanvas.layers ⟨0, by omega⟩) 0 0 = 0 from rfl]
  rw [show floodPushes demoFloodCanvas.height 0 0 0 = [] from by decide]
  rw [List.nil_append]
  rw [floodLoop]

theorem claim_C6_flood_fill_component_witness :
    (doFloodFill demoFloodCanvas 0 0 0 255).1.layers ⟨0, by omega⟩ 0 0 =
      unpackPixel 255 ∧
    doFloodFill demoFloodCanvas 0 0 0 4278190335 =
      (demoFloodCanvas, false) := by
  refine ⟨?_, ?_⟩
  · have hrun : doFloodFill demoFloodCanvas 0 0 0 255 =
        ((doFloodFill demoFloodCanvas 0 0 0 255).1, false) := by
      rw [Prod.ext_iff]
      exact ⟨rfl, demoFlood_flag⟩
    have h := (claim_C6_flood_fill_component demoFloodCanvas 0 0 0 255
        (by omega) (by norm_num) (by decide) (by decide)).2 (by decide)
        (doFloodFill demoFloodCanvas 0 0 0 255).1 hrun
    have hconn : connectedTo demoFloodCanvas.width demoFloodCanvas.height
        (packPixel (demoFloodCanvas.layers ⟨0, by omega⟩ (i32ToU32 0)
          (i32ToU32 0)))
        (demoFloodCanvas.layers ⟨0, by omega⟩) (i32ToU32 0, i32ToU32 0)
        (0, 0) := by
      exact Relation.ReflTransGen.refl
    exact h.2.2.2.2.2.1 0 0 hconn
  · exact (claim_C6_flood_fill_component demoFloodCanvas 0 0 0 4278190335
      (by omega) (by norm_num) (by decide) (by decide)).1
      (Or.inr (by decide))

end NeoReplay